import Mathlib

/-!
# The encoder picture buffer of libde265 (`libde265/encoder/encpicbuf.cc`)

A shallow embedding of `image_data` and `encoder_picture_buffer`.

* The deque `mImages` of record pointers is a list of records in deque order;
  a record pointer (the result of `get_picture`, `get_next_picture_to_encode`)
  is the position of the record in that list.
* `int` values carry no arithmetic in this file and are `Int`.
* An image pointer (`const de265_image*`) is `Option Nat`, `none` being `NULL`.
* `assert` is taken as active.  An operation ends in `Outcome.done` with the
  buffer it leaves, or in `Outcome.aborted` with the fault and the buffer as
  it stands at the moment the assertion fails.
-/

set_option autoImplicit false

namespace EncPicBuf

/-! ## Data model -/

/-- Modelled from the spec: the enumeration `image_data::state` is declared in
`encpicbuf.h`, which is not part of the sources at hand.  The enumerator names
are those used in `encpicbuf.cc`; their order is the one the specification
gives: UNPROCESSED, SOP_METADATA_AVAILABLE, ENCODING, KEEP_FOR_REFERENCE. -/
inductive image_data_state where
  | state_unprocessed
  | state_sop_metadata_available
  | state_encoding
  | state_keep_for_reference
  deriving DecidableEq

open image_data_state

/-- The integer value of an enumerator, which is what `state < state_encoding`
compares in the source. -/
def image_data_state.rank : image_data_state → Nat
  | state_unprocessed => 0
  | state_sop_metadata_available => 1
  | state_encoding => 2
  | state_keep_for_reference => 3

/-- Modelled from the spec: the member list of `struct image_data` is declared
in `encpicbuf.h`; the fields below are those that `encpicbuf.cc` reads or
writes.  The slice header `shdr` (only ever given its defaults on insertion,
never read here) is left out. `nal_type` is `none` until `set_NAL_type`. -/
structure image_data where
  frame_number : Int
  input : Option Nat
  reconstruction : Option Nat
  sps_index : Int
  temporal_layer : Int
  skip_priority : Int
  is_intra : Bool
  nal_type : Option Nat
  ref0 : List Int
  ref1 : List Int
  longterm : List Int
  keep : List Int
  state : image_data_state
  is_in_output_queue : Bool
  mark_used : Bool
  deriving DecidableEq

/-- The constructor `image_data::image_data()`.  It leaves `mark_used`
unassigned; every read of `mark_used` in the source comes after the loop that
clears it on all records, so the value chosen here (`false`) is never seen. -/
def image_data_ctor : image_data :=
  { frame_number := 0
    input := none
    reconstruction := none
    sps_index := -1
    temporal_layer := 0
    skip_priority := 0
    is_intra := true
    nal_type := none
    ref0 := []
    ref1 := []
    longterm := []
    keep := []
    state := state_unprocessed
    is_in_output_queue := true
    mark_used := false }

/-- Modelled from the spec: the members of `class encoder_picture_buffer` are
declared in `encpicbuf.h`; `mImages` and `mEndOfStream` are the two that
`encpicbuf.cc` uses. -/
structure encoder_picture_buffer where
  mImages : List image_data
  mEndOfStream : Bool
  deriving DecidableEq

/-- The ways an operation can stop short. -/
inductive Fault where
  /-- The `assert(false)` at the end of `get_picture`: no record has the number. -/
  | get_picture_assert
  /-- The `assert(data->frame_number == frame_number)` of `sop_metadata_commit`. -/
  | frame_number_assert
  /-- Behaviour the language leaves undefined: `back()` of an empty deque, or
  a record pointer that is not in the buffer. -/
  | undefined_behaviour
  deriving DecidableEq

/-- How an operation ends, with the buffer as it is at that point. -/
inductive Outcome where
  | done (b : encoder_picture_buffer)
  | aborted (flt : Fault) (b : encoder_picture_buffer)
  deriving DecidableEq

/-- Whether an operation ran to its end. -/
def Outcome.completed : Outcome → Bool
  | Outcome.done _ => true
  | Outcome.aborted _ _ => false

/-- The fields of a record other than the scratch bit `mark_used`. -/
def image_data.persistent (r : image_data) : image_data :=
  { r with mark_used := false }

/-! ## Record setters (`image_data::set_...`) -/

def image_data.set_intra (r : image_data) : image_data :=
  { r with is_intra := true }

def image_data.set_NAL_type (r : image_data) (nalType : Nat) : image_data :=
  { r with nal_type := some (nalType % 256) }

def image_data.set_references (r : image_data) (sps_index : Int)
    (l0 l1 lt keepMoreReferences : List Int) : image_data :=
  { r with sps_index := sps_index, ref0 := l0, ref1 := l1, longterm := lt,
           keep := keepMoreReferences }

def image_data.set_temporal_layer (r : image_data) (temporal_layer : Int) : image_data :=
  { r with temporal_layer := temporal_layer }

def image_data.set_skip_priority (r : image_data) (skip_priority : Int) : image_data :=
  { r with skip_priority := skip_priority }

/-! ## Access to the records of the deque -/

/-- Assignment through a record pointer: the record at position `i` becomes
`g` of itself; all other positions are untouched. -/
def modify_at (g : image_data → image_data) : List image_data → Nat → List image_data
  | [], _ => []
  | r :: rs, 0 => g r :: rs
  | r :: rs, i + 1 => r :: modify_at g rs i

/-- The loop of `get_picture`, from position `i` on, over the records not yet
visited: the position of the first record with the frame number. -/
def get_picture_loop : List image_data → Nat → Int → Option Nat
  | [], _, _ => none
  | r :: rs, i, frame_number =>
    if r.frame_number = frame_number then some i
    else get_picture_loop rs (i + 1) frame_number

/-- The lookup `encoder_picture_buffer::get_picture`; `none` is the case that
reaches `assert(false)`. -/
def encoder_picture_buffer.get_picture (b : encoder_picture_buffer) (frame_number : Int) :
    Option Nat :=
  get_picture_loop b.mImages 0 frame_number

/-- The loop shared by `have_more_frames_to_encode` and
`get_next_picture_to_encode`: the first position from `i` on whose record has
`state < state_encoding`. -/
def next_to_encode_loop : List image_data → Nat → Option Nat
  | [], _ => none
  | r :: rs, i =>
    if r.state.rank < state_encoding.rank then some i
    else next_to_encode_loop rs (i + 1)

/-- The loop of `have_more_frames_to_encode`. -/
def have_more_loop : List image_data → Bool
  | [] => false
  | r :: rs => if r.state.rank < state_encoding.rank then true else have_more_loop rs

def encoder_picture_buffer.have_more_frames_to_encode (b : encoder_picture_buffer) : Bool :=
  have_more_loop b.mImages

/-- The pointer returned by `get_next_picture_to_encode`, as a position;
`none` is `NULL`. -/
def encoder_picture_buffer.get_next_picture_to_encode (b : encoder_picture_buffer) :
    Option Nat :=
  next_to_encode_loop b.mImages 0

/-! ## Operations of the buffer -/

/-- The constructor `encoder_picture_buffer::encoder_picture_buffer()`. -/
def encoder_picture_buffer_ctor : encoder_picture_buffer :=
  { mImages := [], mEndOfStream := false }

/-- The loop of `flush_images`: deletes the front record until none is left. -/
def flush_loop : List image_data → List image_data
  | [] => []
  | _ :: rs => flush_loop rs

def encoder_picture_buffer.flush_images (b : encoder_picture_buffer) : encoder_picture_buffer :=
  { b with mImages := flush_loop b.mImages }

def encoder_picture_buffer.reset (b : encoder_picture_buffer) : encoder_picture_buffer :=
  { b.flush_images with mEndOfStream := false }

/-- The record built by `insert_next_image_in_encoding_order`. -/
def new_image_data (img : Option Nat) (frame_number : Int) : image_data :=
  { image_data_ctor with frame_number := frame_number, input := img }

def encoder_picture_buffer.insert_next_image_in_encoding_order (b : encoder_picture_buffer)
    (img : Option Nat) (frame_number : Int) : Outcome :=
  Outcome.done { b with mImages := b.mImages ++ [new_image_data img frame_number] }

def encoder_picture_buffer.insert_end_of_stream (b : encoder_picture_buffer) :
    encoder_picture_buffer :=
  { b with mEndOfStream := true }

def encoder_picture_buffer.sop_metadata_commit (b : encoder_picture_buffer)
    (frame_number : Int) : Outcome :=
  match b.mImages.getLast? with
  | none => Outcome.aborted Fault.undefined_behaviour b
  | some data =>
    if data.frame_number = frame_number then
      let imgs := modify_at (fun r => { r with state := state_sop_metadata_available })
        b.mImages (b.mImages.length - 1)
      Outcome.done { b with mImages := imgs }
    else Outcome.aborted Fault.frame_number_assert b

def encoder_picture_buffer.mark_encoding_started (b : encoder_picture_buffer)
    (frame_number : Int) : Outcome :=
  match b.get_picture frame_number with
  | none => Outcome.aborted Fault.get_picture_assert b
  | some i =>
    let imgs := modify_at (fun r => { r with state := state_encoding }) b.mImages i
    Outcome.done { b with mImages := imgs }

def encoder_picture_buffer.set_reconstruction_image (b : encoder_picture_buffer)
    (frame_number : Int) (reco : Option Nat) : Outcome :=
  match b.get_picture frame_number with
  | none => Outcome.aborted Fault.get_picture_assert b
  | some i =>
    let imgs := modify_at (fun r => { r with reconstruction := reco }) b.mImages i
    Outcome.done { b with mImages := imgs }

/-- First loop of `mark_encoding_finished`: `mark_used = false` on all. -/
def clear_marks : List image_data → List image_data
  | [] => []
  | r :: rs => { r with mark_used := false } :: clear_marks rs

/-- One of the four loops `for (int f : list) get_picture(f)->mark_used=true`.
`Except.error` carries the records as they are when a lookup fails. -/
def mark_refs : List image_data → List Int → Except (List image_data) (List image_data)
  | imgs, [] => Except.ok imgs
  | imgs, f :: fs =>
    match get_picture_loop imgs 0 f with
    | none => Except.error imgs
    | some i => mark_refs (modify_at (fun r => { r with mark_used := true }) imgs i) fs

/-- Last loop of `mark_encoding_finished`: the records copied to
`newImageSet`, in deque order. -/
def copy_kept : List image_data → List image_data
  | [] => []
  | r :: rs =>
    if r.mark_used || r.is_in_output_queue then r :: copy_kept rs else copy_kept rs

/-- The part of `mark_encoding_finished` before the copy: the state change of
`data` (at position `i0`), the clearing loop, the four marking loops over the
lists of `data`, and `data->mark_used=true`. -/
def mark_phase (imgs : List image_data) (i0 : Nat) :
    Except (List image_data) (List image_data) :=
  let s1 := clear_marks (modify_at (fun r => { r with state := state_keep_for_reference }) imgs i0)
  match s1[i0]? with
  | none => Except.error s1
  | some data =>
    match mark_refs s1 data.ref0 with
    | Except.error s => Except.error s
    | Except.ok s2 =>
      match mark_refs s2 data.ref1 with
      | Except.error s => Except.error s
      | Except.ok s3 =>
        match mark_refs s3 data.longterm with
        | Except.error s => Except.error s
        | Except.ok s4 =>
          match mark_refs s4 data.keep with
          | Except.error s => Except.error s
          | Except.ok s5 =>
            Except.ok (modify_at (fun r => { r with mark_used := true }) s5 i0)

def encoder_picture_buffer.mark_encoding_finished (b : encoder_picture_buffer)
    (frame_number : Int) : Outcome :=
  match b.get_picture frame_number with
  | none => Outcome.aborted Fault.get_picture_assert b
  | some i0 =>
    match mark_phase b.mImages i0 with
    | Except.error s => Outcome.aborted Fault.get_picture_assert { b with mImages := s }
    | Except.ok s => Outcome.done { b with mImages := copy_kept s }

def encoder_picture_buffer.mark_image_is_outputted (b : encoder_picture_buffer)
    (frame_number : Int) : Outcome :=
  match b.get_picture frame_number with
  | none => Outcome.aborted Fault.get_picture_assert b
  | some i =>
    let imgs := modify_at (fun r => { r with is_in_output_queue := false }) b.mImages i
    Outcome.done { b with mImages := imgs }

def encoder_picture_buffer.release_input_image (b : encoder_picture_buffer)
    (frame_number : Int) : Outcome :=
  match b.get_picture frame_number with
  | none => Outcome.aborted Fault.get_picture_assert b
  | some i =>
    let imgs := modify_at (fun r => { r with input := none }) b.mImages i
    Outcome.done { b with mImages := imgs }

/-- The four lists of the record that `get_picture` finds for a frame number,
in the order the marking loops go through them. -/
def encoder_picture_buffer.lists_of (b : encoder_picture_buffer) (frame_number : Int) :
    List Int :=
  match b.get_picture frame_number with
  | none => []
  | some i =>
    match b.mImages[i]? with
    | none => []
    | some data => data.ref0 ++ data.ref1 ++ data.longterm ++ data.keep

/-! ## Operations as data, and buffers over a sequence of operations -/

/-- The operations that change a buffer or one of its records.  A record
setter is called on a record pointer; here the pointer is the position `i`. -/
inductive Op where
  | reset
  | insert_next_image_in_encoding_order (img : Option Nat) (frame_number : Int)
  | insert_end_of_stream
  | set_intra (i : Nat)
  | set_NAL_type (i : Nat) (nalType : Nat)
  | set_references (i : Nat) (sps_index : Int) (l0 l1 lt keepMoreReferences : List Int)
  | set_temporal_layer (i : Nat) (temporal_layer : Int)
  | set_skip_priority (i : Nat) (skip_priority : Int)
  | sop_metadata_commit (frame_number : Int)
  | mark_encoding_started (frame_number : Int)
  | set_reconstruction_image (frame_number : Int) (reco : Option Nat)
  | mark_encoding_finished (frame_number : Int)
  | mark_image_is_outputted (frame_number : Int)
  | release_input_image (frame_number : Int)
  deriving DecidableEq

/-- A record setter called on the pointer to the record at position `i`; a
pointer to no record of the buffer is undefined behaviour. -/
def encoder_picture_buffer.through_pointer (b : encoder_picture_buffer) (i : Nat)
    (g : image_data → image_data) : Outcome :=
  if i < b.mImages.length then
    let imgs := modify_at g b.mImages i
    Outcome.done { b with mImages := imgs }
  else Outcome.aborted Fault.undefined_behaviour b

/-- One operation on a buffer. -/
def step (b : encoder_picture_buffer) : Op → Outcome
  | Op.reset => Outcome.done b.reset
  | Op.insert_next_image_in_encoding_order img f =>
    b.insert_next_image_in_encoding_order img f
  | Op.insert_end_of_stream => Outcome.done b.insert_end_of_stream
  | Op.set_intra i => b.through_pointer i image_data.set_intra
  | Op.set_NAL_type i t => b.through_pointer i (fun r => r.set_NAL_type t)
  | Op.set_references i sps l0 l1 lt k =>
    b.through_pointer i (fun r => r.set_references sps l0 l1 lt k)
  | Op.set_temporal_layer i t => b.through_pointer i (fun r => r.set_temporal_layer t)
  | Op.set_skip_priority i p => b.through_pointer i (fun r => r.set_skip_priority p)
  | Op.sop_metadata_commit f => b.sop_metadata_commit f
  | Op.mark_encoding_started f => b.mark_encoding_started f
  | Op.set_reconstruction_image f reco => b.set_reconstruction_image f reco
  | Op.mark_encoding_finished f => b.mark_encoding_finished f
  | Op.mark_image_is_outputted f => b.mark_image_is_outputted f
  | Op.release_input_image f => b.release_input_image f

/-- A sequence of operations, one after the other; it stops at the first one
that aborts. -/
def run : encoder_picture_buffer → List Op → Outcome
  | b, [] => Outcome.done b
  | b, op :: ops =>
    match step b op with
    | Outcome.done b1 => run b1 ops
    | Outcome.aborted flt b1 => Outcome.aborted flt b1

/-- The positions, before the copy loop of `mark_encoding_finished`, of the
records that the loop copies to `newImageSet`, in the order it copies them;
`i` is the position of the head of the list. -/
def kept_positions : List image_data → Nat → List Nat
  | [], _ => []
  | r :: rs, i =>
    if r.mark_used || r.is_in_output_queue then i :: kept_positions rs (i + 1)
    else kept_positions rs (i + 1)

/-- For each record of the buffer after an operation, in deque order, the
position that record had in the buffer before the operation; `none` for the
record that the operation created.  Only `reset` and the copy loop of
`mark_encoding_finished` remove records, and only insertion adds one. -/
def origin (b : encoder_picture_buffer) : Op → List (Option Nat)
  | Op.reset => []
  | Op.insert_next_image_in_encoding_order _ _ =>
    (List.range b.mImages.length).map some ++ [none]
  | Op.mark_encoding_finished f =>
    match b.get_picture f with
    | none => (List.range b.mImages.length).map some
    | some i0 =>
      match mark_phase b.mImages i0 with
      | Except.error _ => (List.range b.mImages.length).map some
      | Except.ok s => (kept_positions s 0).map some
  | _ => (List.range b.mImages.length).map some

/-- Whether an operation meets a record in a state that its state assignment
does not lower: `sop_metadata_commit` a last record at most in
`state_sop_metadata_available`, `mark_encoding_started` a record at most in
`state_encoding`.  The other operations assign no state or the highest one. -/
def state_not_above_target (b : encoder_picture_buffer) : Op → Bool
  | Op.sop_metadata_commit _ =>
    match b.mImages.getLast? with
    | none => true
    | some data => decide (data.state.rank ≤ state_sop_metadata_available.rank)
  | Op.mark_encoding_started f =>
    match b.get_picture f with
    | none => true
    | some i =>
      match b.mImages[i]? with
      | none => true
      | some data => decide (data.state.rank ≤ state_encoding.rank)
  | _ => true

/-- Whether the caller of an operation keeps frame numbers unique: an
insertion uses a frame number that no record of the buffer carries. -/
def inserts_fresh_number (b : encoder_picture_buffer) : Op → Bool
  | Op.insert_next_image_in_encoding_order _ f => (b.get_picture f).isNone
  | _ => true

/-- Whether the caller keeps frame numbers unique at every operation of a
sequence, as far as the sequence runs. -/
def callers_keep_unique : encoder_picture_buffer → List Op → Bool
  | _, [] => true
  | b, op :: ops =>
    inserts_fresh_number b op &&
      match step b op with
      | Outcome.done b1 => callers_keep_unique b1 ops
      | Outcome.aborted _ _ => true

/-! ## Sample buffers -/

/-- A record as the operations leave it: inserted with input `7`, given
`ref0` through `set_references`, in state `st` and with output flag `q`. -/
def sample_record (f : Int) (refs : List Int) (st : image_data_state) (q : Bool) :
    image_data :=
  { (new_image_data (some 7) f).set_references (-1) refs [] [] [] with
    state := st, is_in_output_queue := q }

/-- Frames 0 to 3: frame 2 is being encoded and refers to frame 1; frames 0
and 1 have been output, frame 3 has not. -/
def sample_buffer : encoder_picture_buffer :=
  { mImages :=
      [ sample_record 0 [] state_keep_for_reference false,
        sample_record 1 [0] state_keep_for_reference false,
        sample_record 2 [1] state_encoding false,
        sample_record 3 [2] state_sop_metadata_available true ]
    mEndOfStream := false }

/-- The buffer `sample_buffer` after `mark_encoding_finished(2)`: frame 0 is
gone. -/
def sample_buffer_finished : encoder_picture_buffer :=
  { mImages :=
      [ { sample_record 1 [0] state_keep_for_reference false with mark_used := true },
        { sample_record 2 [1] state_keep_for_reference false with mark_used := true },
        sample_record 3 [2] state_sop_metadata_available true ]
    mEndOfStream := false }

/-- Frames 0 and 1, both past the SOP stage: frame 0 is kept for reference
and holds reconstruction 5, frame 1, the last one inserted, is being encoded.
It is the buffer that `late_session` leaves. -/
def late_buffer : encoder_picture_buffer :=
  { mImages :=
      [ { sample_record 0 [] state_keep_for_reference true with
          reconstruction := some 5, mark_used := true },
        sample_record 1 [0] state_encoding true ]
    mEndOfStream := false }

/-- Two frames are inserted and committed, frame 0 is encoded, then the
encoding of frame 1 starts. -/
def late_session : List Op :=
  [ Op.insert_next_image_in_encoding_order (some 7) 0,
    Op.set_references 0 (-1) [] [] [] [],
    Op.sop_metadata_commit 0,
    Op.insert_next_image_in_encoding_order (some 7) 1,
    Op.set_references 1 (-1) [0] [] [] [],
    Op.sop_metadata_commit 1,
    Op.mark_encoding_started 0,
    Op.set_reconstruction_image 0 (some 5),
    Op.mark_encoding_finished 0,
    Op.mark_encoding_started 1 ]

/-- The last record of `late_buffer`. -/
def late_back : image_data :=
  sample_record 1 [0] state_encoding true

/-- A session of three frames: each is inserted, given its references and
committed; frames 0 and 1 are encoded and output, then frame 2 is encoded. -/
def sample_session : List Op :=
  [ Op.insert_next_image_in_encoding_order (some 10) 0,
    Op.sop_metadata_commit 0,
    Op.insert_next_image_in_encoding_order (some 11) 1,
    Op.set_references 1 (-1) [0] [] [] [],
    Op.sop_metadata_commit 1,
    Op.mark_encoding_started 0,
    Op.set_reconstruction_image 0 (some 20),
    Op.mark_encoding_finished 0,
    Op.mark_image_is_outputted 0,
    Op.insert_next_image_in_encoding_order (some 12) 2,
    Op.set_references 2 (-1) [1] [] [] [],
    Op.sop_metadata_commit 2,
    Op.mark_encoding_started 1,
    Op.mark_encoding_finished 1,
    Op.mark_image_is_outputted 1,
    Op.mark_encoding_started 2,
    Op.mark_encoding_finished 2 ]

/-! ## The marks in closed form -/

/-- The marks that the clearing loop and the marking loops leave, in closed
form: a record is marked when its frame number is one of those to mark (`c`)
and no record before it (nor a number in `seen`) carries that number, for the
lookup stops at the first record with the number. -/
def first_marked (c : Int → Bool) : List Int → List image_data → List image_data
  | _, [] => []
  | seen, r :: rs =>
    { r with mark_used := c r.frame_number && decide (r.frame_number ∉ seen) } ::
      first_marked c (r.frame_number :: seen) rs

/-! ## Sessions -/

/-- The insertions of a sequence of pictures, each an input image with its
frame number, in order. -/
def insert_all (ps : List (Option Nat × Int)) : List Op :=
  ps.map (fun p => Op.insert_next_image_in_encoding_order p.1 p.2)

/-- The calls `mark_encoding_started` for a sequence of frame numbers, in order. -/
def start_all (fs : List Int) : List Op :=
  fs.map Op.mark_encoding_started

/-- Frames 0, 1, 1 and 2, with frame number 1 carried twice: frame 2 is being
encoded and refers to frame 1; only frame 2 has not been output. -/
def twin_buffer : encoder_picture_buffer :=
  { mImages :=
      [ sample_record 0 [] state_keep_for_reference false,
        sample_record 1 [0] state_keep_for_reference false,
        sample_record 1 [] state_keep_for_reference false,
        sample_record 2 [1] state_encoding true ]
    mEndOfStream := false }

/-- Three pictures with frame numbers 5, 3 and 8. -/
def sample_pictures : List (Option Nat × Int) :=
  [(some 10, 5), (some 11, 3), (some 12, 8)]

/-- The scenario of three frames up to the end of the encoding of frame 1: each
of the frames 0, 1, 2 is inserted, given its `ref0` (none, frame 0, frames 0 and
1) and committed while it is the last record; then frame 0 is encoded, then
frame 1. -/
def scenario_start : List Op :=
  [ Op.insert_next_image_in_encoding_order (some 10) 0,
    Op.set_references 0 (-1) [] [] [] [],
    Op.sop_metadata_commit 0,
    Op.insert_next_image_in_encoding_order (some 11) 1,
    Op.set_references 1 (-1) [0] [] [] [],
    Op.sop_metadata_commit 1,
    Op.insert_next_image_in_encoding_order (some 12) 2,
    Op.set_references 2 (-1) [0, 1] [] [] [],
    Op.sop_metadata_commit 2,
    Op.mark_encoding_started 0,
    Op.mark_encoding_finished 0,
    Op.mark_encoding_started 1,
    Op.mark_encoding_finished 1 ]

/-- The scenario with the output of all three frames acknowledged before frame
2 is encoded. -/
def scenario_all_output : List Op :=
  scenario_start ++
    [ Op.mark_image_is_outputted 0,
      Op.mark_image_is_outputted 1,
      Op.mark_image_is_outputted 2,
      Op.mark_encoding_started 2,
      Op.mark_encoding_finished 2 ]

/-- The scenario with only the output of frame 2 acknowledged before frame 2 is
encoded. -/
def scenario_one_output : List Op :=
  scenario_start ++
    [ Op.mark_image_is_outputted 2,
      Op.mark_encoding_started 2,
      Op.mark_encoding_finished 2 ]

/-- The beginning of the scenario with all three insertions made before the
first commit. -/
def scenario_commit_late : List Op :=
  [ Op.insert_next_image_in_encoding_order (some 10) 0,
    Op.insert_next_image_in_encoding_order (some 11) 1,
    Op.insert_next_image_in_encoding_order (some 12) 2,
    Op.set_references 0 (-1) [] [] [] [],
    Op.sop_metadata_commit 0 ]

/-! ## Lemmas on the access functions -/

theorem get_picture_loop_shift (l : List image_data) (k : Nat) (f : Int) :
    get_picture_loop l k f = (get_picture_loop l 0 f).map (fun j => j + k) := by
  induction l generalizing k with
  | nil => simp [get_picture_loop]
  | cons r rs ih =>
    by_cases hr : r.frame_number = f
    · simp [get_picture_loop, hr]
    · simp only [get_picture_loop, hr, if_false]
      rw [ih (k + 1), ih (0 + 1)]
      cases get_picture_loop rs 0 f with
      | none => simp
      | some j => simp; omega

theorem get_picture_loop_cons (r : image_data) (rs : List image_data) (f : Int) :
    get_picture_loop (r :: rs) 0 f =
      if r.frame_number = f then some 0
      else (get_picture_loop rs 0 f).map (fun j => j + 1) := by
  simp only [get_picture_loop]
  rw [get_picture_loop_shift rs (0 + 1) f]

/-- The lookup reads nothing but the frame numbers. -/
theorem get_picture_loop_congr (l l' : List image_data) (f : Int)
    (h : l.map image_data.frame_number = l'.map image_data.frame_number) :
    get_picture_loop l 0 f = get_picture_loop l' 0 f := by
  induction l generalizing l' with
  | nil =>
    cases l' with
    | nil => rfl
    | cons r' rs' => simp at h
  | cons r rs ih =>
    cases l' with
    | nil => simp at h
    | cons r' rs' =>
      simp only [List.map_cons, List.cons.injEq] at h
      rw [get_picture_loop_cons, get_picture_loop_cons, ih rs' h.2, h.1]

/-- A successful lookup returns a position that holds a record with the frame
number, and no earlier position does. -/
theorem get_picture_loop_some (l : List image_data) (f : Int) (i : Nat)
    (h : get_picture_loop l 0 f = some i) :
    (∃ r, l[i]? = some r ∧ r.frame_number = f) ∧
      ∀ j, j < i → ∀ r, l[j]? = some r → r.frame_number ≠ f := by
  induction l generalizing i with
  | nil => simp [get_picture_loop] at h
  | cons r rs ih =>
    rw [get_picture_loop_cons] at h
    by_cases hr : r.frame_number = f
    · simp only [hr, if_true, Option.some.injEq] at h
      subst h
      exact ⟨⟨r, by simp, hr⟩, fun j hj => absurd hj (Nat.not_lt_zero j)⟩
    · simp only [hr, if_false, Option.map_eq_some'] at h
      obtain ⟨j, hj, rfl⟩ := h
      obtain ⟨⟨r0, hr0, hf0⟩, hmin⟩ := ih j hj
      refine ⟨⟨r0, by simpa using hr0, hf0⟩, ?_⟩
      intro j' hj' r1 hr1
      cases j' with
      | zero =>
        simp only [List.getElem?_cons_zero, Option.some.injEq] at hr1
        subst hr1
        exact hr
      | succ j'' =>
        simp only [List.getElem?_cons_succ] at hr1
        exact hmin j'' (by omega) r1 hr1

/-- The lookup fails exactly when no record carries the frame number. -/
theorem get_picture_loop_none (l : List image_data) (f : Int) :
    get_picture_loop l 0 f = none ↔ ∀ r ∈ l, r.frame_number ≠ f := by
  induction l with
  | nil => simp [get_picture_loop]
  | cons r rs ih =>
    rw [get_picture_loop_cons]
    by_cases hr : r.frame_number = f
    · simp [hr]
    · simp [hr, ih]

theorem modify_at_length (g : image_data → image_data) (l : List image_data) (i : Nat) :
    (modify_at g l i).length = l.length := by
  induction l generalizing i with
  | nil => rfl
  | cons r rs ih =>
    cases i with
    | zero => rfl
    | succ j => simp [modify_at, ih]

/-- A projection that the assigned function respects is the same before and
after the assignment, position by position. -/
theorem modify_at_map {β : Type} (p : image_data → β) (g : image_data → image_data)
    (hg : ∀ r, p (g r) = p r) (l : List image_data) (i : Nat) :
    (modify_at g l i).map p = l.map p := by
  induction l generalizing i with
  | nil => rfl
  | cons r rs ih =>
    cases i with
    | zero => simp [modify_at, hg]
    | succ j => simp [modify_at, ih]

theorem modify_at_getElem? (g : image_data → image_data) (l : List image_data) (i j : Nat) :
    (modify_at g l i)[j]? = if j = i then l[j]?.map g else l[j]? := by
  induction l generalizing i j with
  | nil => simp [modify_at]
  | cons r rs ih =>
    cases i with
    | zero =>
      cases j with
      | zero => simp [modify_at]
      | succ j' => simp [modify_at]
    | succ i' =>
      cases j with
      | zero => simp [modify_at]
      | succ j' => simp [modify_at, ih]

theorem modify_at_mem (g : image_data → image_data) (l : List image_data) (i : Nat)
    (r' : image_data) (h : r' ∈ modify_at g l i) :
    r' ∈ l ∨ ∃ r, l[i]? = some r ∧ r' = g r := by
  induction l generalizing i with
  | nil => simp [modify_at] at h
  | cons r rs ih =>
    cases i with
    | zero =>
      simp only [modify_at, List.mem_cons] at h
      rcases h with h | h
      · exact Or.inr ⟨r, by simp, h⟩
      · exact Or.inl (List.mem_cons_of_mem _ h)
    | succ j =>
      simp only [modify_at, List.mem_cons] at h
      rcases h with h | h
      · exact Or.inl (h ▸ List.mem_cons_self _ _)
      · rcases ih j h with h1 | ⟨r0, h0, h1⟩
        · exact Or.inl (List.mem_cons_of_mem _ h1)
        · exact Or.inr ⟨r0, by simpa using h0, h1⟩

theorem clear_marks_eq_map (l : List image_data) :
    clear_marks l = l.map (fun r => { r with mark_used := false }) := by
  induction l with
  | nil => rfl
  | cons r rs ih => simp [clear_marks, ih]

theorem copy_kept_eq_filter (l : List image_data) :
    copy_kept l = l.filter (fun r => r.mark_used || r.is_in_output_queue) := by
  induction l with
  | nil => rfl
  | cons r rs ih =>
    cases h : (r.mark_used || r.is_in_output_queue) <;>
      simp [copy_kept, List.filter_cons, h, ih]

/-! ## Lemmas on the marking loops -/

/-- A projection that ignores `mark_used` is the same, position by position,
before and after a marking loop, whether it completes or not. -/
theorem mark_refs_map {β : Type} (p : image_data → β)
    (hp : ∀ r : image_data, p { r with mark_used := true } = p r)
    (l : List image_data) (fs : List Int) :
    (∀ l', mark_refs l fs = Except.ok l' → l'.map p = l.map p) ∧
      (∀ l', mark_refs l fs = Except.error l' → l'.map p = l.map p) := by
  induction fs generalizing l with
  | nil =>
    constructor
    · intro l' h
      simp only [mark_refs, Except.ok.injEq] at h
      rw [h]
    · intro l' h
      simp [mark_refs] at h
  | cons f fs ih =>
    simp only [mark_refs]
    cases hg : get_picture_loop l 0 f with
    | none =>
      constructor
      · intro l' h
        simp at h
      · intro l' h
        simp only [Except.error.injEq] at h
        rw [h]
    | some i =>
      have hm := modify_at_map p (fun r => { r with mark_used := true }) hp l i
      constructor
      · intro l' h
        rw [(ih _).1 l' h, hm]
      · intro l' h
        rw [(ih _).2 l' h, hm]

/-- A marking loop that completes marks only records whose frame number is in
its list (or that were marked before). -/
theorem mark_refs_sound (S : Int → Prop) (l : List image_data) (fs : List Int)
    (l' : List image_data) (h : mark_refs l fs = Except.ok l')
    (hl : ∀ r ∈ l, r.mark_used = true → S r.frame_number)
    (hfs : ∀ g ∈ fs, S g) :
    ∀ r ∈ l', r.mark_used = true → S r.frame_number := by
  induction fs generalizing l with
  | nil =>
    simp only [mark_refs, Except.ok.injEq] at h
    rw [← h]
    exact hl
  | cons f fs ih =>
    simp only [mark_refs] at h
    cases hg : get_picture_loop l 0 f with
    | none => simp [hg] at h
    | some i =>
      simp only [hg] at h
      refine ih _ h ?_ (fun g hgm => hfs g (List.mem_cons_of_mem _ hgm))
      intro r hr hm
      rcases modify_at_mem _ l i r hr with h1 | ⟨r0, h0, h1⟩
      · exact hl r h1 hm
      · obtain ⟨⟨r1, hr1, hf1⟩, _⟩ := get_picture_loop_some l f i hg
        rw [h0, Option.some.injEq] at hr1
        subst hr1
        rw [h1]
        simp only
        rw [hf1]
        exact hfs f (List.mem_cons_self _ _)

/-- What a completed `mark_phase` went through. -/
theorem mark_phase_ok (imgs : List image_data) (i0 : Nat) (s : List image_data)
    (h : mark_phase imgs i0 = Except.ok s) :
    ∃ data s2 s3 s4 s5,
      (clear_marks (modify_at (fun r => { r with state := state_keep_for_reference })
        imgs i0))[i0]? = some data ∧
      mark_refs (clear_marks (modify_at (fun r => { r with state := state_keep_for_reference })
        imgs i0)) data.ref0 = Except.ok s2 ∧
      mark_refs s2 data.ref1 = Except.ok s3 ∧
      mark_refs s3 data.longterm = Except.ok s4 ∧
      mark_refs s4 data.keep = Except.ok s5 ∧
      s = modify_at (fun r => { r with mark_used := true }) s5 i0 := by
  unfold mark_phase at h
  simp only at h
  split at h
  · simp at h
  · rename_i data hd
    split at h
    · simp at h
    · rename_i s2 h2
      split at h
      · simp at h
      · rename_i s3 h3
        split at h
        · simp at h
        · rename_i s4 h4
          split at h
          · simp at h
          · rename_i s5 h5
            simp only [Except.ok.injEq] at h
            exact ⟨data, s2, s3, s4, s5, hd, h2, h3, h4, h5, h.symm⟩

/-- The record that `mark_phase` reads the lists from has the lists and the
frame number of the record at that position before the call. -/
theorem mark_phase_data (imgs : List image_data) (i0 : Nat) (data : image_data)
    (h : (clear_marks (modify_at (fun r => { r with state := state_keep_for_reference })
        imgs i0))[i0]? = some data) :
    ∃ d, imgs[i0]? = some d ∧ data.frame_number = d.frame_number ∧
      data.ref0 = d.ref0 ∧ data.ref1 = d.ref1 ∧ data.longterm = d.longterm ∧
      data.keep = d.keep ∧ data.mark_used = false ∧
      data.state = state_keep_for_reference := by
  rw [clear_marks_eq_map, List.getElem?_map, modify_at_getElem?] at h
  simp only [if_true] at h
  cases hd : imgs[i0]? with
  | none => simp [hd] at h
  | some d =>
    simp only [hd, Option.map_some', Option.some.injEq] at h
    exact ⟨d, rfl, by rw [← h], by rw [← h], by rw [← h], by rw [← h], by rw [← h],
      by rw [← h], by rw [← h]⟩

/-- A projection that ignores `mark_used` is, after a completed `mark_phase`,
what it is after the state assignment alone. -/
theorem mark_phase_map {β : Type} (p : image_data → β)
    (hp : ∀ (r : image_data) (v : Bool), p { r with mark_used := v } = p r)
    (imgs : List image_data) (i0 : Nat) (s : List image_data)
    (h : mark_phase imgs i0 = Except.ok s) :
    s.map p =
      (modify_at (fun r => { r with state := state_keep_for_reference }) imgs i0).map p := by
  obtain ⟨data, s2, s3, s4, s5, _, h2, h3, h4, h5, hs⟩ := mark_phase_ok imgs i0 s h
  have hpt : ∀ r : image_data, p { r with mark_used := true } = p r := fun r => hp r true
  rw [hs, modify_at_map p _ hpt, (mark_refs_map p hpt _ _).1 s5 h5,
    (mark_refs_map p hpt _ _).1 s4 h4, (mark_refs_map p hpt _ _).1 s3 h3,
    (mark_refs_map p hpt _ _).1 s2 h2, clear_marks_eq_map, List.map_map]
  congr 1
  funext r
  exact hp r false

/-- After a completed `mark_phase` a marked record carries the frame number of
the record at `i0` or one from its four lists. -/
theorem mark_phase_sound (imgs : List image_data) (i0 : Nat) (s : List image_data)
    (d : image_data) (h : mark_phase imgs i0 = Except.ok s) (hd : imgs[i0]? = some d) :
    ∀ r ∈ s, r.mark_used = true →
      r.frame_number = d.frame_number ∨
        r.frame_number ∈ d.ref0 ++ d.ref1 ++ d.longterm ++ d.keep := by
  obtain ⟨data, s2, s3, s4, s5, hdata, h2, h3, h4, h5, hs⟩ := mark_phase_ok imgs i0 s h
  obtain ⟨d', hd', hfn, h0, h1, hl, hk, _, _⟩ := mark_phase_data imgs i0 data hdata
  rw [hd, Option.some.injEq] at hd'
  subst hd'
  let S : Int → Prop := fun g =>
    g = d.frame_number ∨ g ∈ d.ref0 ++ d.ref1 ++ d.longterm ++ d.keep
  have hs1 : ∀ r ∈ clear_marks (modify_at
      (fun r => { r with state := state_keep_for_reference }) imgs i0),
      r.mark_used = true → S r.frame_number := by
    intro r hr hm
    rw [clear_marks_eq_map, List.mem_map] at hr
    obtain ⟨r0, _, rfl⟩ := hr
    simp at hm
  have hs2 := mark_refs_sound S _ _ s2 h2 hs1
    (fun g hg => Or.inr (by rw [h0] at hg; simp [hg]))
  have hs3 := mark_refs_sound S _ _ s3 h3 hs2
    (fun g hg => Or.inr (by rw [h1] at hg; simp [hg]))
  have hs4 := mark_refs_sound S _ _ s4 h4 hs3
    (fun g hg => Or.inr (by rw [hl] at hg; simp [hg]))
  have hs5 := mark_refs_sound S _ _ s5 h5 hs4
    (fun g hg => Or.inr (by rw [hk] at hg; simp [hg]))
  intro r hr hm
  rw [hs] at hr
  rcases modify_at_mem _ s5 i0 r hr with hin | ⟨r0, hr0, hrr⟩
  · exact hs5 r hin hm
  · left
    have hfmap : s5.map image_data.frame_number = imgs.map image_data.frame_number := by
      have hpt : ∀ r : image_data,
          image_data.frame_number { r with mark_used := true } = r.frame_number := fun _ => rfl
      rw [(mark_refs_map _ hpt _ _).1 s5 h5, (mark_refs_map _ hpt _ _).1 s4 h4,
        (mark_refs_map _ hpt _ _).1 s3 h3, (mark_refs_map _ hpt _ _).1 s2 h2,
        clear_marks_eq_map, List.map_map]
      rw [← modify_at_map image_data.frame_number
        (fun r => { r with state := state_keep_for_reference }) (fun _ => rfl) imgs i0]
      rfl
    have hget : (s5.map image_data.frame_number)[i0]? =
        (imgs.map image_data.frame_number)[i0]? := by rw [hfmap]
    rw [List.getElem?_map, List.getElem?_map, hr0, hd] at hget
    simp only [Option.map_some', Option.some.injEq] at hget
    rw [hrr]
    exact hget

theorem copy_kept_mem (l : List image_data) (r : image_data) :
    r ∈ copy_kept l ↔ r ∈ l ∧ (r.mark_used = true ∨ r.is_in_output_queue = true) := by
  rw [copy_kept_eq_filter, List.mem_filter]
  simp

/-- What a successful `mark_encoding_finished` went through. -/
theorem mark_encoding_finished_done (b b' : encoder_picture_buffer) (f : Int)
    (h : b.mark_encoding_finished f = Outcome.done b') :
    ∃ i0 d s, get_picture_loop b.mImages 0 f = some i0 ∧ b.mImages[i0]? = some d ∧
      d.frame_number = f ∧ mark_phase b.mImages i0 = Except.ok s ∧
      b' = { b with mImages := copy_kept s } := by
  unfold encoder_picture_buffer.mark_encoding_finished
    encoder_picture_buffer.get_picture at h
  split at h
  · simp at h
  · rename_i i0 hi0
    split at h
    · simp at h
    · rename_i s hs
      simp only [Outcome.done.injEq] at h
      obtain ⟨⟨d, hd, hf⟩, _⟩ := get_picture_loop_some b.mImages f i0 hi0
      exact ⟨i0, d, s, hi0, hd, hf, hs, h.symm⟩

theorem lists_of_eq (b : encoder_picture_buffer) (f : Int) (i0 : Nat) (d : image_data)
    (hi : get_picture_loop b.mImages 0 f = some i0) (hd : b.mImages[i0]? = some d) :
    b.lists_of f = d.ref0 ++ d.ref1 ++ d.longterm ++ d.keep := by
  simp [encoder_picture_buffer.lists_of, encoder_picture_buffer.get_picture, hi, hd]

/-! ## Eviction -/

/-- C1. Eviction soundness: when `mark_encoding_finished(f)` completes, every
record left in the buffer has frame number `f`, or a frame number that occurs
in one of the four lists of the record found for `f`, or is still in the
output queue. -/
theorem eviction_soundness (b b' : encoder_picture_buffer) (f : Int)
    (h : b.mark_encoding_finished f = Outcome.done b') :
    ∀ r ∈ b'.mImages,
      r.frame_number = f ∨ r.frame_number ∈ b.lists_of f ∨ r.is_in_output_queue = true := by
  obtain ⟨i0, d, s, hi0, hd, hf, hs, hb'⟩ := mark_encoding_finished_done b b' f h
  intro r hr
  rw [hb'] at hr
  simp only at hr
  rw [copy_kept_mem] at hr
  rcases hr with ⟨hin, hm | hq⟩
  · rcases mark_phase_sound b.mImages i0 s d hs hd r hin hm with h1 | h1
    · exact Or.inl (h1.trans hf)
    · exact Or.inr (Or.inl (by rw [lists_of_eq b f i0 d hi0 hd]; exact h1))
  · exact Or.inr (Or.inr hq)

theorem eviction_soundness_witness :
    sample_buffer.mark_encoding_finished 2 = Outcome.done sample_buffer_finished ∧
      ∀ r ∈ sample_buffer_finished.mImages,
        r.frame_number = 2 ∨ r.frame_number ∈ sample_buffer.lists_of 2 ∨
          r.is_in_output_queue = true :=
  ⟨by decide, eviction_soundness sample_buffer sample_buffer_finished 2 (by decide)⟩

/-- With pairwise distinct frame numbers, an assignment through the pointer
that `get_picture` returns is an assignment to every record with the frame
number. -/
theorem modify_at_nodup (g : image_data → image_data) (l : List image_data) (f : Int)
    (i : Nat) (hnd : (l.map image_data.frame_number).Nodup)
    (h : get_picture_loop l 0 f = some i) :
    modify_at g l i = l.map (fun r => if r.frame_number = f then g r else r) := by
  induction l generalizing i with
  | nil => simp [get_picture_loop] at h
  | cons r rs ih =>
    rw [get_picture_loop_cons] at h
    simp only [List.map_cons, List.nodup_cons, List.mem_map, not_exists, not_and] at hnd
    by_cases hr : r.frame_number = f
    · simp only [hr, if_true, Option.some.injEq] at h
      subst h
      simp only [modify_at, List.map_cons, hr, if_true, List.cons.injEq, true_and]
      have hid : ∀ x ∈ rs, (if x.frame_number = f then g x else x) = x := by
        intro x hx
        have hne : x.frame_number ≠ f := fun hxf => hnd.1 x hx (hxf.trans hr.symm)
        simp [hne]
      calc rs = rs.map id := by simp
        _ = rs.map (fun r => if r.frame_number = f then g r else r) :=
            List.map_congr_left (fun x hx => (hid x hx).symm)
    · simp only [hr, if_false, Option.map_eq_some'] at h
      obtain ⟨j, hj, rfl⟩ := h
      simp only [modify_at, List.map_cons, hr, if_false, List.cons.injEq, true_and]
      exact ih j hnd.2 hj

/-- With pairwise distinct frame numbers, a completed marking loop has marked
exactly the records whose frame number is in its list. -/
theorem mark_refs_nodup (l : List image_data) (fs : List Int) (l' : List image_data)
    (hnd : (l.map image_data.frame_number).Nodup)
    (h : mark_refs l fs = Except.ok l') :
    l' = l.map (fun r => if r.frame_number ∈ fs then { r with mark_used := true } else r) := by
  induction fs generalizing l with
  | nil =>
    simp only [mark_refs, Except.ok.injEq] at h
    simp [h]
  | cons f fs ih =>
    simp only [mark_refs] at h
    cases hg : get_picture_loop l 0 f with
    | none => simp [hg] at h
    | some i =>
      simp only [hg] at h
      rw [modify_at_nodup _ l f i hnd hg] at h
      have hnd' : ((l.map (fun r => if r.frame_number = f then
          { r with mark_used := true } else r)).map image_data.frame_number).Nodup := by
        have hfn : (l.map (fun r => if r.frame_number = f then
            { r with mark_used := true } else r)).map image_data.frame_number =
            l.map image_data.frame_number := by
          rw [List.map_map]
          apply List.map_congr_left
          intro r _
          simp only [Function.comp]
          split <;> rfl
        rw [hfn]
        exact hnd
      rw [ih _ hnd' h, List.map_map]
      apply List.map_congr_left
      intro r _
      simp only [Function.comp, List.mem_cons]
      by_cases h1 : r.frame_number = f <;> by_cases h2 : r.frame_number ∈ fs <;> simp [h1, h2]

/-- With pairwise distinct frame numbers, a completed `mark_phase` leaves each
record as it was, except that the record with frame number `f` is in state
`state_keep_for_reference` and that `mark_used` says whether the frame number
is `f` or in one of the four lists. -/
theorem mark_phase_nodup (imgs : List image_data) (f : Int) (i0 : Nat) (d : image_data)
    (s : List image_data) (hnd : (imgs.map image_data.frame_number).Nodup)
    (hi : get_picture_loop imgs 0 f = some i0) (hd : imgs[i0]? = some d)
    (h : mark_phase imgs i0 = Except.ok s) :
    s = imgs.map (fun r =>
      { (if r.frame_number = f then { r with state := state_keep_for_reference } else r) with
        mark_used := decide (r.frame_number = f ∨
          r.frame_number ∈ d.ref0 ++ d.ref1 ++ d.longterm ++ d.keep) }) := by
  obtain ⟨data, s2, s3, s4, s5, hdata, h2, h3, h4, h5, hs⟩ := mark_phase_ok imgs i0 s h
  obtain ⟨d', hd', _, e0, e1, el, ek, _, _⟩ := mark_phase_data imgs i0 data hdata
  rw [hd, Option.some.injEq] at hd'
  subst hd'
  have hpt : ∀ r : image_data,
      image_data.frame_number { r with mark_used := true } = r.frame_number := fun _ => rfl
  have f1 : (clear_marks (modify_at (fun r => { r with state := state_keep_for_reference })
      imgs i0)).map image_data.frame_number = imgs.map image_data.frame_number := by
    rw [clear_marks_eq_map, List.map_map,
      ← modify_at_map image_data.frame_number
        (fun r => { r with state := state_keep_for_reference }) (fun _ => rfl) imgs i0]
    rfl
  have f2 : s2.map image_data.frame_number = imgs.map image_data.frame_number := by
    rw [(mark_refs_map _ hpt _ _).1 s2 h2, f1]
  have f3 : s3.map image_data.frame_number = imgs.map image_data.frame_number := by
    rw [(mark_refs_map _ hpt _ _).1 s3 h3, f2]
  have f4 : s4.map image_data.frame_number = imgs.map image_data.frame_number := by
    rw [(mark_refs_map _ hpt _ _).1 s4 h4, f3]
  have f5 : s5.map image_data.frame_number = imgs.map image_data.frame_number := by
    rw [(mark_refs_map _ hpt _ _).1 s5 h5, f4]
  have g2 := mark_refs_nodup _ _ s2 (by rw [f1]; exact hnd) h2
  have g3 := mark_refs_nodup _ _ s3 (by rw [f2]; exact hnd) h3
  have g4 := mark_refs_nodup _ _ s4 (by rw [f3]; exact hnd) h4
  have g5 := mark_refs_nodup _ _ s5 (by rw [f4]; exact hnd) h5
  have hi5 : get_picture_loop s5 0 f = some i0 := by
    rw [get_picture_loop_congr s5 imgs f f5]
    exact hi
  have g6 := modify_at_nodup (fun r => { r with mark_used := true }) s5 f i0
    (by rw [f5]; exact hnd) hi5
  rw [hs, g6, g5, g4, g3, g2, clear_marks_eq_map, modify_at_nodup _ imgs f i0 hnd hi]
  simp only [List.map_map]
  apply List.map_congr_left
  intro r _
  simp only [Function.comp, e0, e1, el, ek, List.mem_append]
  by_cases c0 : r.frame_number = f
  · subst c0
    by_cases c1 : r.frame_number ∈ d.ref0 <;> by_cases c2 : r.frame_number ∈ d.ref1 <;>
      by_cases c3 : r.frame_number ∈ d.longterm <;>
      by_cases c4 : r.frame_number ∈ d.keep <;> simp [c1, c2, c3, c4]
  · by_cases c1 : r.frame_number ∈ d.ref0 <;> by_cases c2 : r.frame_number ∈ d.ref1 <;>
      by_cases c3 : r.frame_number ∈ d.longterm <;>
      by_cases c4 : r.frame_number ∈ d.keep <;> simp [c0, c1, c2, c3, c4]

/-- C2. Eviction retention and order: in a buffer with pairwise distinct frame
numbers, a completed `mark_encoding_finished(f)` leaves exactly the prior
sequence of records without those that are neither `f`, nor named in one of the
four lists of `f`, nor still in the output queue; the survivors are in their
prior order and, apart from the state of `f` (now `state_keep_for_reference`),
every field other than the scratch bit `mark_used` is as before. -/
theorem eviction_retention (b b' : encoder_picture_buffer) (f : Int)
    (hnd : (b.mImages.map image_data.frame_number).Nodup)
    (h : b.mark_encoding_finished f = Outcome.done b') :
    b'.mImages.map image_data.persistent =
      ((b.mImages.filter (fun r => decide (r.frame_number = f) ||
          decide (r.frame_number ∈ b.lists_of f) || r.is_in_output_queue)).map
        (fun r => if r.frame_number = f then
          { r with state := state_keep_for_reference } else r)).map image_data.persistent := by
  obtain ⟨i0, d, s, hi0, hd, _, hs, hb'⟩ := mark_encoding_finished_done b b' f h
  rw [hb', lists_of_eq b f i0 d hi0 hd]
  simp only
  rw [copy_kept_eq_filter, mark_phase_nodup b.mImages f i0 d s hnd hi0 hd hs, List.filter_map,
    List.map_map, List.map_map]
  have hfilter : ((fun r : image_data => r.mark_used || r.is_in_output_queue) ∘
      (fun r : image_data =>
        { (if r.frame_number = f then { r with state := state_keep_for_reference } else r) with
          mark_used := decide (r.frame_number = f ∨
            r.frame_number ∈ d.ref0 ++ d.ref1 ++ d.longterm ++ d.keep) })) =
      (fun r => decide (r.frame_number = f) ||
        decide (r.frame_number ∈ d.ref0 ++ d.ref1 ++ d.longterm ++ d.keep) ||
        r.is_in_output_queue) := by
    funext r
    by_cases c0 : r.frame_number = f <;> simp [c0]
  rw [hfilter]
  apply List.map_congr_left
  intro r _
  by_cases c0 : r.frame_number = f <;> simp [c0, image_data.persistent]

theorem eviction_retention_witness :
    (sample_buffer.mImages.map image_data.frame_number).Nodup ∧
    sample_buffer.mark_encoding_finished 2 = Outcome.done sample_buffer_finished ∧
    sample_buffer_finished.mImages.map image_data.persistent =
      ((sample_buffer.mImages.filter (fun r => decide (r.frame_number = 2) ||
          decide (r.frame_number ∈ sample_buffer.lists_of 2) || r.is_in_output_queue)).map
        (fun r => if r.frame_number = 2 then
          { r with state := state_keep_for_reference } else r)).map image_data.persistent :=
  ⟨by decide, by decide,
    eviction_retention sample_buffer sample_buffer_finished 2 (by decide) (by decide)⟩

/-! ## State changes -/

/-- The buffer `late_buffer` is what the calls of `late_session` leave of the
empty buffer. -/
theorem late_buffer_reached :
    run encoder_picture_buffer_ctor late_session = Outcome.done late_buffer := by
  decide

theorem range_origin (n j i : Nat) :
    ((List.range n).map some)[j]? = some (some i) ↔ i = j ∧ j < n := by
  rw [List.getElem?_map]
  by_cases hj : j < n
  · rw [List.getElem?_range hj]
    simp [hj, eq_comm]
  · rw [List.getElem?_eq_none (by simpa using hj)]
    simp [hj]

/-- The positions listed by `kept_positions` are those of the records that
`copy_kept` returns, one for one. -/
theorem kept_positions_spec (m : List image_data) (k : Nat) :
    (kept_positions m k).length = (copy_kept m).length ∧
      ∀ j i : Nat, (kept_positions m k)[j]? = some i →
        ∃ i', i = k + i' ∧ i' < m.length ∧ (copy_kept m)[j]? = m[i']? := by
  induction m generalizing k with
  | nil => simp [kept_positions, copy_kept]
  | cons r rs ih =>
    obtain ⟨ihl, ihp⟩ := ih (k + 1)
    cases hk : (r.mark_used || r.is_in_output_queue) with
    | false =>
      simp only [kept_positions, copy_kept, hk, Bool.false_eq_true, if_false]
      refine ⟨ihl, ?_⟩
      intro j i hji
      obtain ⟨i', hi', hlt, hget⟩ := ihp j i hji
      exact ⟨i' + 1, by omega, by simpa using hlt, by simpa using hget⟩
    | true =>
      simp only [kept_positions, copy_kept, hk, if_true, List.length_cons]
      refine ⟨by rw [ihl], ?_⟩
      intro j i hji
      cases j with
      | zero =>
        simp only [List.getElem?_cons_zero, Option.some.injEq] at hji
        exact ⟨0, by omega, by simp, by simp⟩
      | succ j' =>
        simp only [List.getElem?_cons_succ] at hji
        obtain ⟨i', hi', hlt, hget⟩ := ihp j' i hji
        exact ⟨i' + 1, by omega, by simpa using hlt, by simpa using hget⟩

/-- An assignment through a pointer that does not lower the state of the
record it meets lowers no state. -/
theorem modify_at_tracks (g : image_data → image_data) (l : List image_data) (idx : Nat)
    (hg : ∀ r, l[idx]? = some r → r.state.rank ≤ (g r).state.rank) :
    ((List.range l.length).map some).length = (modify_at g l idx).length ∧
      ∀ j i : Nat, ((List.range l.length).map some)[j]? = some (some i) →
        ∃ r r' : image_data, l[i]? = some r ∧ (modify_at g l idx)[j]? = some r' ∧
          r.state.rank ≤ r'.state.rank := by
  refine ⟨by simp [modify_at_length], ?_⟩
  intro j i hji
  rw [range_origin] at hji
  obtain ⟨rfl, hlt⟩ := hji
  have hget : l[i]? = some l[i] := List.getElem?_eq_getElem hlt
  rw [modify_at_getElem?]
  by_cases hij : i = idx
  · subst hij
    exact ⟨l[i], g l[i], hget, by simp [hget], hg _ hget⟩
  · exact ⟨l[i], l[i], hget, by simp [hij, hget], Nat.le_refl _⟩

theorem through_pointer_tracks (b b' : encoder_picture_buffer) (idx : Nat)
    (g : image_data → image_data) (hg : ∀ r, (g r).state = r.state)
    (h : b.through_pointer idx g = Outcome.done b') :
    ((List.range b.mImages.length).map some).length = b'.mImages.length ∧
      ∀ j i : Nat, ((List.range b.mImages.length).map some)[j]? = some (some i) →
        ∃ r r' : image_data, b.mImages[i]? = some r ∧ b'.mImages[j]? = some r' ∧
          r.state.rank ≤ r'.state.rank := by
  unfold encoder_picture_buffer.through_pointer at h
  split at h
  · simp only [Outcome.done.injEq] at h
    subst h
    exact modify_at_tracks g b.mImages idx (fun r _ => by rw [hg r])
  · simp at h

theorem lookup_modify_tracks (b b' : encoder_picture_buffer) (f : Int)
    (g : image_data → image_data)
    (hg : ∀ i r, b.get_picture f = some i → b.mImages[i]? = some r →
      r.state.rank ≤ (g r).state.rank)
    (h : (match b.get_picture f with
      | none => Outcome.aborted Fault.get_picture_assert b
      | some i =>
        let imgs := modify_at g b.mImages i
        Outcome.done { b with mImages := imgs }) = Outcome.done b') :
    ((List.range b.mImages.length).map some).length = b'.mImages.length ∧
      ∀ j i : Nat, ((List.range b.mImages.length).map some)[j]? = some (some i) →
        ∃ r r' : image_data, b.mImages[i]? = some r ∧ b'.mImages[j]? = some r' ∧
          r.state.rank ≤ r'.state.rank := by
  cases hgp : b.get_picture f with
  | none => simp [hgp] at h
  | some idx =>
    simp only [hgp, Outcome.done.injEq] at h
    subst h
    exact modify_at_tracks g b.mImages idx (fun r hr => hg idx r hgp hr)

theorem flush_loop_nil (l : List image_data) : flush_loop l = [] := by
  induction l with
  | nil => rfl
  | cons r rs ih => simpa [flush_loop] using ih

theorem rank_le_keep (st : image_data_state) :
    st.rank ≤ state_keep_for_reference.rank := by
  cases st <;> simp [image_data_state.rank]

/-- Records that a completed `mark_encoding_finished` keeps have not had their
state lowered. -/
theorem mark_encoding_finished_tracks (b b' : encoder_picture_buffer) (f : Int)
    (h : b.mark_encoding_finished f = Outcome.done b') :
    (origin b (Op.mark_encoding_finished f)).length = b'.mImages.length ∧
      ∀ j i : Nat, (origin b (Op.mark_encoding_finished f))[j]? = some (some i) →
        ∃ r r' : image_data, b.mImages[i]? = some r ∧ b'.mImages[j]? = some r' ∧
          r.state.rank ≤ r'.state.rank := by
  obtain ⟨i0, d, s, hi0, hd, _, hs, hb'⟩ := mark_encoding_finished_done b b' f h
  have ho : origin b (Op.mark_encoding_finished f) = (kept_positions s 0).map some := by
    simp [origin, encoder_picture_buffer.get_picture, hi0, hs]
  obtain ⟨hlen, hpos⟩ := kept_positions_spec s 0
  rw [ho, hb']
  refine ⟨by simp [hlen], ?_⟩
  intro j i hji
  rw [List.getElem?_map] at hji
  cases hk : (kept_positions s 0)[j]? with
  | none => simp [hk] at hji
  | some i1 =>
    simp only [hk, Option.map_some', Option.some.injEq] at hji
    subst hji
    obtain ⟨i', hi', hlt, hget⟩ := hpos j i1 hk
    have hi1 : i1 = i' := by omega
    subst hi1
    have hst := mark_phase_map image_data.state (fun _ _ => rfl) b.mImages i0 s hs
    have hlen2 : s.length = b.mImages.length := by
      have := congrArg List.length hst
      simpa [modify_at_length] using this
    obtain ⟨rs, hget1⟩ : ∃ rs, s[i1]? = some rs := ⟨s[i1], List.getElem?_eq_getElem hlt⟩
    have hlt2 : i1 < b.mImages.length := by omega
    obtain ⟨rb, hget2⟩ : ∃ rb, b.mImages[i1]? = some rb :=
      ⟨b.mImages[i1], List.getElem?_eq_getElem hlt2⟩
    refine ⟨rb, rs, hget2, by simpa [hget1] using hget, ?_⟩
    have hsti : (s.map image_data.state)[i1]? =
        ((modify_at (fun r => { r with state := state_keep_for_reference })
          b.mImages i0).map image_data.state)[i1]? := by rw [hst]
    rw [List.getElem?_map, List.getElem?_map, modify_at_getElem?, hget1, hget2] at hsti
    by_cases hii : i1 = i0
    · simp only [hii, if_true, Option.map_some', Option.some.injEq] at hsti
      rw [hsti]
      exact rank_le_keep _
    · simp only [hii, if_false, Option.map_some', Option.some.injEq] at hsti
      rw [hsti]

/-- When an operation completes and does not meet a record above the state it
assigns, every record that is in the buffer before and after has afterwards a
state at least as high as before. -/
theorem monotone_of_not_above (b b' : encoder_picture_buffer) (op : Op)
    (h : step b op = Outcome.done b') (hg : state_not_above_target b op = true) :
    (origin b op).length = b'.mImages.length ∧
      ∀ j i : Nat, (origin b op)[j]? = some (some i) →
        ∃ r r' : image_data, b.mImages[i]? = some r ∧ b'.mImages[j]? = some r' ∧
          r.state.rank ≤ r'.state.rank := by
  cases op with
  | reset =>
    simp only [step, Outcome.done.injEq] at h
    subst h
    simp [origin, encoder_picture_buffer.reset, encoder_picture_buffer.flush_images,
      flush_loop_nil]
  | insert_next_image_in_encoding_order img f =>
    simp only [step, encoder_picture_buffer.insert_next_image_in_encoding_order,
      Outcome.done.injEq] at h
    subst h
    refine ⟨by simp [origin], ?_⟩
    intro j i hji
    simp only [origin] at hji
    by_cases hj : j < b.mImages.length
    · rw [List.getElem?_append_left (by simpa using hj), range_origin] at hji
      obtain ⟨rfl, _⟩ := hji
      obtain ⟨r, hr⟩ : ∃ r, b.mImages[i]? = some r :=
        ⟨b.mImages[i], List.getElem?_eq_getElem hj⟩
      exact ⟨r, r, hr, by simp only; rw [List.getElem?_append_left hj]; exact hr,
        Nat.le_refl _⟩
    · rw [List.getElem?_append_right (by simpa using hj)] at hji
      simp only [List.length_map, List.length_range] at hji
      cases hjn : j - b.mImages.length with
      | zero => simp [hjn] at hji
      | succ k => simp [hjn] at hji
  | insert_end_of_stream =>
    simp only [step, encoder_picture_buffer.insert_end_of_stream, Outcome.done.injEq] at h
    subst h
    refine ⟨by simp [origin], ?_⟩
    intro j i hji
    simp only [origin] at hji
    rw [range_origin] at hji
    obtain ⟨rfl, hj⟩ := hji
    obtain ⟨r, hr⟩ : ∃ r, b.mImages[i]? = some r :=
      ⟨b.mImages[i], List.getElem?_eq_getElem hj⟩
    exact ⟨r, r, hr, hr, Nat.le_refl _⟩
  | set_intra i0 =>
    exact through_pointer_tracks b b' i0 image_data.set_intra (fun _ => rfl) h
  | set_NAL_type i0 t =>
    exact through_pointer_tracks b b' i0 (fun r => r.set_NAL_type t) (fun _ => rfl) h
  | set_references i0 sps l0 l1 lt k =>
    exact through_pointer_tracks b b' i0 (fun r => r.set_references sps l0 l1 lt k)
      (fun _ => rfl) h
  | set_temporal_layer i0 t =>
    exact through_pointer_tracks b b' i0 (fun r => r.set_temporal_layer t) (fun _ => rfl) h
  | set_skip_priority i0 q =>
    exact through_pointer_tracks b b' i0 (fun r => r.set_skip_priority q) (fun _ => rfl) h
  | sop_metadata_commit f =>
    simp only [step, encoder_picture_buffer.sop_metadata_commit] at h
    simp only [state_not_above_target] at hg
    cases hl : b.mImages.getLast? with
    | none => simp [hl] at h
    | some data =>
      simp only [hl, decide_eq_true_eq] at h hg
      split at h
      · simp only [Outcome.done.injEq] at h
        subst h
        refine modify_at_tracks _ b.mImages (b.mImages.length - 1) ?_
        intro r hr
        rw [List.getLast?_eq_getElem?, hr, Option.some.injEq] at hl
        subst hl
        exact hg
      · simp at h
  | mark_encoding_started f =>
    refine lookup_modify_tracks b b' f (fun r => { r with state := state_encoding }) ?_ h
    intro i r hi hr
    simp only [state_not_above_target, hi, hr, decide_eq_true_eq] at hg
    exact hg
  | set_reconstruction_image f reco =>
    exact lookup_modify_tracks b b' f (fun r => { r with reconstruction := reco })
      (fun _ _ _ _ => Nat.le_refl _) h
  | mark_encoding_finished f => exact mark_encoding_finished_tracks b b' f h
  | mark_image_is_outputted f =>
    exact lookup_modify_tracks b b' f (fun r => { r with is_in_output_queue := false })
      (fun _ _ _ _ => Nat.le_refl _) h
  | release_input_image f =>
    exact lookup_modify_tracks b b' f (fun r => { r with input := none })
      (fun _ _ _ _ => Nat.le_refl _) h

/-- When the state of no record is lowered, the operation has not met a record
above the state it assigns. -/
theorem not_above_of_monotone (b b' : encoder_picture_buffer) (op : Op)
    (h : step b op = Outcome.done b')
    (hall : ∀ j i : Nat, (origin b op)[j]? = some (some i) →
      ∃ r r' : image_data, b.mImages[i]? = some r ∧ b'.mImages[j]? = some r' ∧
        r.state.rank ≤ r'.state.rank) :
    state_not_above_target b op = true := by
  cases op with
  | sop_metadata_commit f =>
    simp only [step, encoder_picture_buffer.sop_metadata_commit] at h
    simp only [state_not_above_target]
    cases hl : b.mImages.getLast? with
    | none => rfl
    | some data =>
      simp only [hl] at h
      simp only [decide_eq_true_eq]
      split at h
      · simp only [Outcome.done.injEq] at h
        subst h
        have hl' := hl
        rw [List.getLast?_eq_getElem?] at hl'
        have hlt : b.mImages.length - 1 < b.mImages.length := by
          cases hb : b.mImages with
          | nil => simp [hb] at hl
          | cons x xs => simp
        obtain ⟨r, r', hr, hr', hle⟩ := hall (b.mImages.length - 1) (b.mImages.length - 1)
          (by simp only [origin]; rw [range_origin]; exact ⟨rfl, hlt⟩)
        rw [hl', Option.some.injEq] at hr
        subst hr
        simp only [modify_at_getElem?, if_true, hl', Option.map_some',
          Option.some.injEq] at hr'
        subst hr'
        exact hle
      · simp at h
  | mark_encoding_started f =>
    simp only [step, encoder_picture_buffer.mark_encoding_started] at h
    simp only [state_not_above_target]
    cases hgp : b.get_picture f with
    | none => rfl
    | some i0 =>
      simp only [hgp, Outcome.done.injEq] at h
      subst h
      cases hd : b.mImages[i0]? with
      | none => simp [hd]
      | some data =>
        simp only [hd, decide_eq_true_eq]
        have hlt : i0 < b.mImages.length := by
          by_contra hcon
          rw [List.getElem?_eq_none (by omega)] at hd
          simp at hd
        obtain ⟨r, r', hr, hr', hle⟩ := hall i0 i0
          (by simp only [origin]; rw [range_origin]; exact ⟨rfl, hlt⟩)
        rw [hd, Option.some.injEq] at hr
        subst hr
        simp only [modify_at_getElem?, if_true, hd, Option.map_some',
          Option.some.injEq] at hr'
        subst hr'
        exact hle
  | _ => rfl

/-- After an operation that completes, `origin` has one entry for each record
of the buffer. -/
theorem origin_length (b b' : encoder_picture_buffer) (op : Op)
    (h : step b op = Outcome.done b') :
    (origin b op).length = b'.mImages.length := by
  cases op with
  | sop_metadata_commit f =>
    simp only [step, encoder_picture_buffer.sop_metadata_commit] at h
    cases hl : b.mImages.getLast? with
    | none => simp [hl] at h
    | some data =>
      simp only [hl] at h
      split at h
      · simp only [Outcome.done.injEq] at h
        subst h
        simp [origin, modify_at_length]
      · simp at h
  | mark_encoding_started f =>
    simp only [step, encoder_picture_buffer.mark_encoding_started] at h
    cases hgp : b.get_picture f with
    | none => simp [hgp] at h
    | some i0 =>
      simp only [hgp, Outcome.done.injEq] at h
      subst h
      simp [origin, modify_at_length]
  | _ => exact (monotone_of_not_above b b' _ h rfl).1

/-- C3, as amended. State monotonicity: after an operation that completes,
`origin` lists for every record of the buffer the position it had before, and
every record that is in the buffer before and after has a state at least as
high as before exactly when the operation did not meet a record above the
state it assigns: `sop_metadata_commit` a last record beyond
`state_sop_metadata_available`, `mark_encoding_started` a record beyond
`state_encoding`.  Insertion, the record setters, `set_reconstruction_image`,
`mark_encoding_finished`, `mark_image_is_outputted`, `release_input_image` and
`reset` meet no such record. -/
theorem state_monotone (b b' : encoder_picture_buffer) (op : Op)
    (h : step b op = Outcome.done b') :
    (origin b op).length = b'.mImages.length ∧
      (state_not_above_target b op = true ↔
        ∀ j i : Nat, (origin b op)[j]? = some (some i) →
          ∃ r r' : image_data, b.mImages[i]? = some r ∧ b'.mImages[j]? = some r' ∧
            r.state.rank ≤ r'.state.rank) :=
  ⟨origin_length b b' op h,
    fun hg => (monotone_of_not_above b b' op h hg).2,
    fun hall => not_above_of_monotone b b' op h hall⟩

theorem state_monotone_witness :
    step sample_buffer (Op.mark_encoding_finished 2) = Outcome.done sample_buffer_finished ∧
      origin sample_buffer (Op.mark_encoding_finished 2) = [some 1, some 2, some 3] ∧
      ((origin sample_buffer (Op.mark_encoding_finished 2)).length =
          sample_buffer_finished.mImages.length ∧
        (state_not_above_target sample_buffer (Op.mark_encoding_finished 2) = true ↔
          ∀ j i : Nat,
            (origin sample_buffer (Op.mark_encoding_finished 2))[j]? = some (some i) →
            ∃ r r' : image_data, sample_buffer.mImages[i]? = some r ∧
              sample_buffer_finished.mImages[j]? = some r' ∧
              r.state.rank ≤ r'.state.rank)) :=
  ⟨by decide, by decide,
    state_monotone sample_buffer sample_buffer_finished (Op.mark_encoding_finished 2)
      (by decide)⟩

/-- C3, counterexample. In `late_buffer`, `sop_metadata_commit(1)` completes and
takes the last record from `state_encoding` down to
`state_sop_metadata_available`, and `mark_encoding_started(0)` completes and
takes the record of frame 0 from `state_keep_for_reference` down to
`state_encoding`. -/
theorem state_monotone_counterexample :
    (∃ b', step late_buffer (Op.sop_metadata_commit 1) = Outcome.done b' ∧
        (origin late_buffer (Op.sop_metadata_commit 1))[1]? = some (some 1) ∧
        late_buffer.mImages[1]?.map image_data.state = some state_encoding ∧
        b'.mImages[1]?.map image_data.state = some state_sop_metadata_available ∧
        state_sop_metadata_available.rank < state_encoding.rank) ∧
      (∃ b', step late_buffer (Op.mark_encoding_started 0) = Outcome.done b' ∧
        (origin late_buffer (Op.mark_encoding_started 0))[0]? = some (some 0) ∧
        late_buffer.mImages[0]?.map image_data.state = some state_keep_for_reference ∧
        b'.mImages[0]?.map image_data.state = some state_encoding ∧
        state_encoding.rank < state_keep_for_reference.rank) :=
  ⟨⟨_, rfl, by decide, by decide, by decide, by decide⟩,
    ⟨_, rfl, by decide, by decide, by decide, by decide⟩⟩

/-! ## Selection of the next picture to encode -/

theorem next_to_encode_loop_shift (l : List image_data) (k : Nat) :
    next_to_encode_loop l k = (next_to_encode_loop l 0).map (fun j => j + k) := by
  induction l generalizing k with
  | nil => simp [next_to_encode_loop]
  | cons r rs ih =>
    by_cases hr : r.state.rank < state_encoding.rank
    · simp [next_to_encode_loop, hr]
    · simp only [next_to_encode_loop, hr, if_false]
      rw [ih (k + 1), ih (0 + 1)]
      cases next_to_encode_loop rs 0 with
      | none => simp
      | some j => simp; omega

theorem next_to_encode_loop_cons (r : image_data) (rs : List image_data) :
    next_to_encode_loop (r :: rs) 0 =
      if r.state.rank < state_encoding.rank then some 0
      else (next_to_encode_loop rs 0).map (fun j => j + 1) := by
  simp only [next_to_encode_loop]
  rw [next_to_encode_loop_shift rs (0 + 1)]

theorem next_to_encode_loop_some (l : List image_data) (i : Nat) :
    next_to_encode_loop l 0 = some i ↔
      (∃ r, l[i]? = some r ∧ r.state.rank < state_encoding.rank) ∧
        ∀ j, j < i → ∀ r, l[j]? = some r → state_encoding.rank ≤ r.state.rank := by
  induction l generalizing i with
  | nil => simp [next_to_encode_loop]
  | cons x xs ih =>
    rw [next_to_encode_loop_cons]
    by_cases hx : x.state.rank < state_encoding.rank
    · simp only [hx, if_true, Option.some.injEq]
      constructor
      · intro h0
        subst h0
        exact ⟨⟨x, by simp, hx⟩, fun j hj => absurd hj (Nat.not_lt_zero j)⟩
      · rintro ⟨_, hmin⟩
        cases i with
        | zero => rfl
        | succ i' =>
          have := hmin 0 (Nat.succ_pos i') x (by simp)
          omega
    · simp only [hx, if_false, Option.map_eq_some']
      constructor
      · rintro ⟨j, hj, rfl⟩
        obtain ⟨⟨r, hr, hlt⟩, hmin⟩ := (ih j).1 hj
        refine ⟨⟨r, by simpa using hr, hlt⟩, ?_⟩
        intro j' hj' r' hr'
        cases j' with
        | zero =>
          simp only [List.getElem?_cons_zero, Option.some.injEq] at hr'
          subst hr'
          omega
        | succ j'' =>
          simp only [List.getElem?_cons_succ] at hr'
          exact hmin j'' (by omega) r' hr'
      · rintro ⟨⟨r, hr, hlt⟩, hmin⟩
        cases i with
        | zero =>
          simp only [List.getElem?_cons_zero, Option.some.injEq] at hr
          subst hr
          exact absurd hlt hx
        | succ i' =>
          simp only [List.getElem?_cons_succ] at hr
          refine ⟨i', (ih i').2 ⟨⟨r, hr, hlt⟩, ?_⟩, rfl⟩
          intro j hj r' hr'
          exact hmin (j + 1) (by omega) r' (by simpa using hr')

theorem next_to_encode_loop_none (l : List image_data) :
    next_to_encode_loop l 0 = none ↔ ∀ r ∈ l, ¬ r.state.rank < state_encoding.rank := by
  induction l with
  | nil => simp [next_to_encode_loop]
  | cons x xs ih =>
    rw [next_to_encode_loop_cons]
    by_cases hx : x.state.rank < state_encoding.rank
    · simp [hx]
    · simp only [hx, if_false, Option.map_eq_none', ih, List.mem_cons, forall_eq_or_imp,
        not_false_eq_true, true_and]

theorem have_more_loop_iff (l : List image_data) :
    have_more_loop l = true ↔ (next_to_encode_loop l 0).isSome = true := by
  induction l with
  | nil => simp [have_more_loop, next_to_encode_loop]
  | cons x xs ih =>
    rw [next_to_encode_loop_cons]
    by_cases hx : x.state.rank < state_encoding.rank
    · simp [have_more_loop, hx]
    · simp only [have_more_loop, hx, if_false, ih]
      cases next_to_encode_loop xs 0 <;> simp

/-- C4. Encoding selection: `get_next_picture_to_encode` returns the record at
the smallest position whose state is below `state_encoding` (every record
before it is at `state_encoding` or above), it returns `NULL` exactly when no
record is below `state_encoding`, and `have_more_frames_to_encode` is true
exactly when `get_next_picture_to_encode` returns a record. -/
theorem encoding_selection (b : encoder_picture_buffer) :
    (∀ i : Nat, b.get_next_picture_to_encode = some i ↔
      (∃ r, b.mImages[i]? = some r ∧ r.state.rank < state_encoding.rank) ∧
        ∀ j, j < i → ∀ r, b.mImages[j]? = some r → state_encoding.rank ≤ r.state.rank) ∧
    (b.get_next_picture_to_encode = none ↔
      ∀ r ∈ b.mImages, ¬ r.state.rank < state_encoding.rank) ∧
    (b.have_more_frames_to_encode = true ↔ b.get_next_picture_to_encode.isSome = true) :=
  ⟨fun i => next_to_encode_loop_some b.mImages i, next_to_encode_loop_none b.mImages,
    have_more_loop_iff b.mImages⟩

/-! ## Insertion -/

/-- The lookup in a deque with one more record at the back: the earlier
records come first. -/
theorem get_picture_loop_append (l : List image_data) (r : image_data) (f : Int) :
    get_picture_loop (l ++ [r]) 0 f =
      match get_picture_loop l 0 f with
      | some i => some i
      | none => if r.frame_number = f then some l.length else none := by
  induction l with
  | nil => simp [get_picture_loop]
  | cons x xs ih =>
    rw [List.cons_append, get_picture_loop_cons, get_picture_loop_cons, ih]
    by_cases hx : x.frame_number = f
    · simp [hx]
    · simp only [hx, if_false]
      cases get_picture_loop xs 0 f with
      | some i => simp
      | none =>
        by_cases hr : r.frame_number = f <;> simp [hr]

/-- C5. Insertion postcondition: for a frame number that no record of the
buffer carries, `insert_next_image_in_encoding_order` completes and appends
exactly one record at the back, with the given frame number and input, in
`state_unprocessed`, without reconstruction and marked as in the output queue;
the records already there are unchanged and in their order, and a lookup of the
frame number now finds the new record. -/
theorem insert_postcondition (b : encoder_picture_buffer) (img : Option Nat) (f : Int)
    (hfresh : b.get_picture f = none) :
    ∃ b' r, b.insert_next_image_in_encoding_order img f = Outcome.done b' ∧
      b'.mImages = b.mImages ++ [r] ∧ b'.mEndOfStream = b.mEndOfStream ∧
      r.frame_number = f ∧ r.input = img ∧ r.state = state_unprocessed ∧
      r.reconstruction = none ∧ r.is_in_output_queue = true ∧
      b'.get_picture f = some b.mImages.length := by
  refine ⟨_, new_image_data img f, rfl, rfl, rfl, rfl, rfl, rfl, rfl, rfl, ?_⟩
  unfold encoder_picture_buffer.get_picture at hfresh ⊢
  simp only
  rw [get_picture_loop_append, hfresh]
  simp [new_image_data]

theorem insert_postcondition_witness :
    sample_buffer.get_picture 4 = none ∧
    ∃ b' r, sample_buffer.insert_next_image_in_encoding_order (some 8) 4 = Outcome.done b' ∧
      b'.mImages = sample_buffer.mImages ++ [r] ∧
      b'.mEndOfStream = sample_buffer.mEndOfStream ∧
      r.frame_number = 4 ∧ r.input = some 8 ∧ r.state = state_unprocessed ∧
      r.reconstruction = none ∧ r.is_in_output_queue = true ∧
      b'.get_picture 4 = some sample_buffer.mImages.length :=
  ⟨by decide, insert_postcondition sample_buffer (some 8) 4 (by decide)⟩

/-- C6, counterexample. The buffer `late_buffer` holds a record with frame
number 1; inserting frame number 1 again does not abort and leaves a buffer
with one record more, two of them with frame number 1. -/
theorem insert_duplicate_counterexample :
    late_buffer.get_picture 1 = some 1 ∧
      (late_buffer.insert_next_image_in_encoding_order (some 9) 1).completed = true ∧
      ∃ b', late_buffer.insert_next_image_in_encoding_order (some 9) 1 = Outcome.done b' ∧
        b'.mImages.length = late_buffer.mImages.length + 1 ∧
        b'.mImages.map image_data.frame_number = [0, 1, 1] :=
  ⟨by decide, by decide, _, rfl, by decide, by decide⟩

/-- C6, as amended. Insertion of a frame number that a record of the buffer
already carries completes: it appends a second record with that frame number
and the given input at the back, the records already there are unchanged, and
a lookup of the frame number still finds the earlier record. -/
theorem insert_duplicate (b : encoder_picture_buffer) (img : Option Nat) (n : Int) (i : Nat)
    (hlive : b.get_picture n = some i) :
    ∃ b' r, b.insert_next_image_in_encoding_order img n = Outcome.done b' ∧
      b'.mImages = b.mImages ++ [r] ∧ b'.mEndOfStream = b.mEndOfStream ∧
      r.frame_number = n ∧ r.input = img ∧ b'.get_picture n = some i := by
  refine ⟨_, new_image_data img n, rfl, rfl, rfl, rfl, rfl, ?_⟩
  unfold encoder_picture_buffer.get_picture at hlive ⊢
  simp only
  rw [get_picture_loop_append, hlive]

theorem insert_duplicate_witness :
    sample_buffer.get_picture 3 = some 3 ∧
    ∃ b' r, sample_buffer.insert_next_image_in_encoding_order (some 9) 3 = Outcome.done b' ∧
      b'.mImages = sample_buffer.mImages ++ [r] ∧
      b'.mEndOfStream = sample_buffer.mEndOfStream ∧
      r.frame_number = 3 ∧ r.input = some 9 ∧ b'.get_picture 3 = some 3 :=
  ⟨by decide, insert_duplicate sample_buffer (some 9) 3 3 (by decide)⟩

/-! ## Uniqueness of frame numbers -/

theorem through_pointer_frame_numbers (b b' : encoder_picture_buffer) (idx : Nat)
    (g : image_data → image_data) (hg : ∀ r, (g r).frame_number = r.frame_number)
    (h : b.through_pointer idx g = Outcome.done b') :
    b'.mImages.map image_data.frame_number = b.mImages.map image_data.frame_number := by
  unfold encoder_picture_buffer.through_pointer at h
  split at h
  · simp only [Outcome.done.injEq] at h
    subst h
    exact modify_at_map image_data.frame_number g hg b.mImages idx
  · simp at h

theorem lookup_modify_frame_numbers (b b' : encoder_picture_buffer) (f : Int)
    (g : image_data → image_data) (hg : ∀ r, (g r).frame_number = r.frame_number)
    (h : (match b.get_picture f with
      | none => Outcome.aborted Fault.get_picture_assert b
      | some i =>
        let imgs := modify_at g b.mImages i
        Outcome.done { b with mImages := imgs }) = Outcome.done b') :
    b'.mImages.map image_data.frame_number = b.mImages.map image_data.frame_number := by
  cases hgp : b.get_picture f with
  | none => simp [hgp] at h
  | some idx =>
    simp only [hgp, Outcome.done.injEq] at h
    subst h
    exact modify_at_map image_data.frame_number g hg b.mImages idx

/-- One completed operation keeps the frame numbers pairwise distinct when an
insertion brings a frame number that is not in the buffer. -/
theorem step_unique (b b' : encoder_picture_buffer) (op : Op)
    (hnd : (b.mImages.map image_data.frame_number).Nodup)
    (hfresh : inserts_fresh_number b op = true)
    (h : step b op = Outcome.done b') :
    (b'.mImages.map image_data.frame_number).Nodup := by
  cases op with
  | reset =>
    simp only [step, Outcome.done.injEq] at h
    subst h
    simp [encoder_picture_buffer.reset, encoder_picture_buffer.flush_images, flush_loop_nil]
  | insert_next_image_in_encoding_order img f =>
    simp only [step, encoder_picture_buffer.insert_next_image_in_encoding_order,
      Outcome.done.injEq] at h
    subst h
    simp only [inserts_fresh_number, Option.isNone_iff_eq_none,
      encoder_picture_buffer.get_picture] at hfresh
    rw [get_picture_loop_none] at hfresh
    simp only [List.map_append, List.map_cons, List.map_nil]
    rw [List.nodup_append]
    refine ⟨hnd, List.nodup_singleton _, ?_⟩
    intro a ha hb
    simp only [List.mem_singleton] at hb
    rw [List.mem_map] at ha
    obtain ⟨r, hr, hra⟩ := ha
    exact hfresh r hr (hra.trans hb)
  | insert_end_of_stream =>
    simp only [step, encoder_picture_buffer.insert_end_of_stream, Outcome.done.injEq] at h
    subst h
    exact hnd
  | set_intra i0 =>
    rw [through_pointer_frame_numbers b b' i0 image_data.set_intra (fun _ => rfl) h]
    exact hnd
  | set_NAL_type i0 t =>
    rw [through_pointer_frame_numbers b b' i0 (fun r => r.set_NAL_type t) (fun _ => rfl) h]
    exact hnd
  | set_references i0 sps l0 l1 lt k =>
    rw [through_pointer_frame_numbers b b' i0 (fun r => r.set_references sps l0 l1 lt k)
      (fun _ => rfl) h]
    exact hnd
  | set_temporal_layer i0 t =>
    rw [through_pointer_frame_numbers b b' i0 (fun r => r.set_temporal_layer t)
      (fun _ => rfl) h]
    exact hnd
  | set_skip_priority i0 q =>
    rw [through_pointer_frame_numbers b b' i0 (fun r => r.set_skip_priority q)
      (fun _ => rfl) h]
    exact hnd
  | sop_metadata_commit f =>
    simp only [step, encoder_picture_buffer.sop_metadata_commit] at h
    cases hl : b.mImages.getLast? with
    | none => simp [hl] at h
    | some data =>
      simp only [hl] at h
      split at h
      · simp only [Outcome.done.injEq] at h
        subst h
        simp only
        rw [modify_at_map image_data.frame_number
          (fun r => { r with state := state_sop_metadata_available }) (fun _ => rfl)]
        exact hnd
      · simp at h
  | mark_encoding_started f =>
    rw [lookup_modify_frame_numbers b b' f (fun r => { r with state := state_encoding })
      (fun _ => rfl) h]
    exact hnd
  | set_reconstruction_image f reco =>
    rw [lookup_modify_frame_numbers b b' f (fun r => { r with reconstruction := reco })
      (fun _ => rfl) h]
    exact hnd
  | mark_encoding_finished f =>
    obtain ⟨i0, d, s, _, _, _, hs, hb'⟩ := mark_encoding_finished_done b b' f h
    have hfn := mark_phase_map image_data.frame_number (fun _ _ => rfl) b.mImages i0 s hs
    rw [modify_at_map image_data.frame_number
      (fun r => { r with state := state_keep_for_reference }) (fun _ => rfl)] at hfn
    rw [hb']
    simp only
    rw [copy_kept_eq_filter]
    refine List.Nodup.sublist (List.Sublist.map _ (List.filter_sublist _)) ?_
    rw [hfn]
    exact hnd
  | mark_image_is_outputted f =>
    rw [lookup_modify_frame_numbers b b' f (fun r => { r with is_in_output_queue := false })
      (fun _ => rfl) h]
    exact hnd
  | release_input_image f =>
    rw [lookup_modify_frame_numbers b b' f (fun r => { r with input := none })
      (fun _ => rfl) h]
    exact hnd

theorem run_unique (ops : List Op) (b b' : encoder_picture_buffer)
    (hnd : (b.mImages.map image_data.frame_number).Nodup)
    (hu : callers_keep_unique b ops = true) (h : run b ops = Outcome.done b') :
    (b'.mImages.map image_data.frame_number).Nodup := by
  induction ops generalizing b with
  | nil =>
    simp only [run, Outcome.done.injEq] at h
    subst h
    exact hnd
  | cons op ops ih =>
    simp only [run] at h
    simp only [callers_keep_unique, Bool.and_eq_true] at hu
    cases hst : step b op with
    | aborted flt b1 => simp [hst] at h
    | done b1 =>
      simp only [hst] at h hu
      exact ih b1 (step_unique b b1 op hnd hu.1 hst) hu.2 h

/-- C7, counterexample. Two insertions of frame number 0 into the empty
buffer complete and leave two records with frame number 0. -/
theorem frame_number_unique_counterexample :
    ∃ b, run encoder_picture_buffer_ctor
        [Op.insert_next_image_in_encoding_order (some 1) 0,
         Op.insert_next_image_in_encoding_order (some 2) 0] = Outcome.done b ∧
      b.mImages.map image_data.frame_number = [0, 0] ∧
      ¬ (b.mImages.map image_data.frame_number).Nodup :=
  ⟨_, rfl, by decide, by decide⟩

/-- C7, as amended. Uniqueness of frame numbers: in every buffer reached from
the empty buffer by a sequence of operations in which each insertion brings a
frame number that no record in the buffer carries at that moment, no two
records have the same frame number. -/
theorem frame_number_unique (ops : List Op) (b : encoder_picture_buffer)
    (hu : callers_keep_unique encoder_picture_buffer_ctor ops = true)
    (h : run encoder_picture_buffer_ctor ops = Outcome.done b) :
    (b.mImages.map image_data.frame_number).Nodup :=
  run_unique ops encoder_picture_buffer_ctor b (by simp [encoder_picture_buffer_ctor]) hu h

theorem frame_number_unique_witness :
    callers_keep_unique encoder_picture_buffer_ctor sample_session = true ∧
    ∃ b, run encoder_picture_buffer_ctor sample_session = Outcome.done b ∧
      b.mImages.map image_data.frame_number = [1, 2] ∧
      (b.mImages.map image_data.frame_number).Nodup :=
  ⟨by decide, _, rfl, by decide,
    frame_number_unique sample_session _ (by decide) rfl⟩

/-! ## SOP commit -/

/-- C8. Out-of-order commit: in a buffer that is not empty,
`sop_metadata_commit` for a frame number other than that of the last record
inserted stops at the assertion on the frame number, with the buffer, and so
the state of every record, as it was. -/
theorem out_of_order_commit (b : encoder_picture_buffer) (f : Int) (data : image_data)
    (hback : b.mImages.getLast? = some data) (hne : data.frame_number ≠ f) :
    b.sop_metadata_commit f = Outcome.aborted Fault.frame_number_assert b := by
  simp [encoder_picture_buffer.sop_metadata_commit, hback, hne]

theorem out_of_order_commit_witness :
    sample_buffer.mImages.getLast? = some (sample_record 3 [2] state_sop_metadata_available true) ∧
    (sample_record 3 [2] state_sop_metadata_available true).frame_number ≠ 2 ∧
    sample_buffer.sop_metadata_commit 2 =
      Outcome.aborted Fault.frame_number_assert sample_buffer :=
  ⟨by decide, by decide,
    out_of_order_commit sample_buffer 2 (sample_record 3 [2] state_sop_metadata_available true)
      (by decide) (by decide)⟩

theorem modify_at_last (g : image_data → image_data) (l : List image_data) (data : image_data)
    (h : l.getLast? = some data) :
    modify_at g l (l.length - 1) = l.dropLast ++ [g data] := by
  induction l with
  | nil => simp at h
  | cons x xs ih =>
    cases xs with
    | nil =>
      simp only [List.getLast?_singleton, Option.some.injEq] at h
      subst h
      rfl
    | cons y ys =>
      rw [List.getLast?_cons_cons] at h
      have := ih h
      simp only [List.length_cons, Nat.add_sub_cancel] at this ⊢
      simp only [modify_at, List.dropLast_cons₂, List.cons_append, List.cons.injEq, true_and]
      exact this

/-- C9, counterexample. In `late_buffer` the last record has frame number 1 and
is in `state_encoding`; `sop_metadata_commit(1)` does not abort, it completes
and leaves that record in `state_sop_metadata_available`. -/
theorem repeated_commit_counterexample :
    late_buffer.mImages.getLast?.map image_data.frame_number = some 1 ∧
      late_buffer.mImages.getLast?.map image_data.state = some state_encoding ∧
      state_sop_metadata_available.rank ≤ state_encoding.rank ∧
      (late_buffer.sop_metadata_commit 1).completed = true ∧
      ∃ b', late_buffer.sop_metadata_commit 1 = Outcome.done b' ∧
        b'.mImages.getLast?.map image_data.state = some state_sop_metadata_available :=
  ⟨by decide, by decide, by decide, by decide, _, rfl, by decide⟩

/-- C9, as amended. Commit on the last record: when the last record inserted
has frame number `n`, `sop_metadata_commit(n)` completes whatever the state of
that record is, and leaves it in `state_sop_metadata_available` (so an
unprocessed record moves to `state_sop_metadata_available`); every other field
of it and every other record are unchanged. -/
theorem commit_on_tail (b : encoder_picture_buffer) (n : Int) (data : image_data)
    (hback : b.mImages.getLast? = some data) (hn : data.frame_number = n) :
    ∃ b', b.sop_metadata_commit n = Outcome.done b' ∧
      b'.mImages = b.mImages.dropLast ++
        [{ data with state := state_sop_metadata_available }] ∧
      b'.mEndOfStream = b.mEndOfStream := by
  subst hn
  refine ⟨{ b with mImages := b.mImages.dropLast ++
      [{ data with state := state_sop_metadata_available }] }, ?_, rfl, rfl⟩
  simp only [encoder_picture_buffer.sop_metadata_commit, hback, if_true]
  rw [modify_at_last (fun r => { r with state := state_sop_metadata_available })
    b.mImages data hback]

theorem commit_on_tail_witness :
    late_buffer.mImages.getLast? = some late_back ∧ late_back.frame_number = 1 ∧
    ∃ b', late_buffer.sop_metadata_commit 1 = Outcome.done b' ∧
      b'.mImages = late_buffer.mImages.dropLast ++
        [{ late_back with state := state_sop_metadata_available }] ∧
      b'.mEndOfStream = late_buffer.mEndOfStream :=
  ⟨by decide, by decide, commit_on_tail late_buffer 1 late_back (by decide) (by decide)⟩

/-! ## Reconstruction -/

/-- C10, counterexample. In `late_buffer` the record of frame 0 holds
reconstruction 5; `set_reconstruction_image(0, 6)` does not abort, it
completes and the record then holds reconstruction 6. -/
theorem double_attach_counterexample :
    late_buffer.get_picture 0 = some 0 ∧
      late_buffer.mImages[0]?.map image_data.reconstruction = some (some 5) ∧
      (late_buffer.set_reconstruction_image 0 (some 6)).completed = true ∧
      ∃ b', late_buffer.set_reconstruction_image 0 (some 6) = Outcome.done b' ∧
        b'.mImages[0]?.map image_data.reconstruction = some (some 6) :=
  ⟨by decide, by decide, by decide, _, rfl, by decide⟩

/-- C10, as amended. Attaching a reconstruction: for a frame number that a
record of the buffer carries, `set_reconstruction_image` completes whether or
not that record already has a reconstruction; the record that the lookup finds
then holds the given reconstruction (an earlier one is replaced), its state
and other fields are unchanged, and so is every other record. -/
theorem attach_reconstruction (b : encoder_picture_buffer) (f : Int) (reco : Option Nat)
    (i : Nat) (data : image_data) (hi : b.get_picture f = some i)
    (hd : b.mImages[i]? = some data) :
    ∃ b', b.set_reconstruction_image f reco = Outcome.done b' ∧
      b'.mEndOfStream = b.mEndOfStream ∧
      b'.mImages.length = b.mImages.length ∧
      ∀ j, b'.mImages[j]? =
        if j = i then some { data with reconstruction := reco } else b.mImages[j]? := by
  refine ⟨⟨modify_at (fun r => { r with reconstruction := reco }) b.mImages i,
    b.mEndOfStream⟩, ?_, rfl, ?_, ?_⟩
  · simp [encoder_picture_buffer.set_reconstruction_image, hi]
  · exact modify_at_length _ _ _
  · intro j
    simp only [modify_at_getElem?]
    by_cases hj : j = i
    · subst hj
      simp [hd]
    · simp [hj]

theorem attach_reconstruction_witness :
    late_buffer.get_picture 1 = some 1 ∧ late_buffer.mImages[1]? = some late_back ∧
    ∃ b', late_buffer.set_reconstruction_image 1 (some 6) = Outcome.done b' ∧
      b'.mEndOfStream = late_buffer.mEndOfStream ∧
      b'.mImages.length = late_buffer.mImages.length ∧
      ∀ j, b'.mImages[j]? =
        if j = 1 then some { late_back with reconstruction := some 6 }
        else late_buffer.mImages[j]? :=
  ⟨by decide, by decide,
    attach_reconstruction late_buffer 1 (some 6) 1 late_back (by decide) (by decide)⟩

/-! ## Unknown frame numbers -/

/-- C11. Unknown frame: for a frame number that no record of the buffer
carries, `mark_encoding_started`, `set_reconstruction_image`,
`mark_encoding_finished`, `mark_image_is_outputted` and `release_input_image`
each stop at the assertion of `get_picture`, with the buffer exactly as it was;
in particular `mark_encoding_finished` removes no record. -/
theorem unknown_frame (b : encoder_picture_buffer) (f : Int) (reco : Option Nat)
    (hnone : ∀ r ∈ b.mImages, r.frame_number ≠ f) :
    b.mark_encoding_started f = Outcome.aborted Fault.get_picture_assert b ∧
    b.set_reconstruction_image f reco = Outcome.aborted Fault.get_picture_assert b ∧
    b.mark_encoding_finished f = Outcome.aborted Fault.get_picture_assert b ∧
    b.mark_image_is_outputted f = Outcome.aborted Fault.get_picture_assert b ∧
    b.release_input_image f = Outcome.aborted Fault.get_picture_assert b := by
  have hg : b.get_picture f = none := (get_picture_loop_none b.mImages f).2 hnone
  simp [encoder_picture_buffer.mark_encoding_started,
    encoder_picture_buffer.set_reconstruction_image,
    encoder_picture_buffer.mark_encoding_finished,
    encoder_picture_buffer.mark_image_is_outputted,
    encoder_picture_buffer.release_input_image, hg]

theorem unknown_frame_witness :
    (∀ r ∈ sample_buffer.mImages, r.frame_number ≠ 9) ∧
    sample_buffer.mark_encoding_started 9 =
      Outcome.aborted Fault.get_picture_assert sample_buffer ∧
    sample_buffer.set_reconstruction_image 9 (some 4) =
      Outcome.aborted Fault.get_picture_assert sample_buffer ∧
    sample_buffer.mark_encoding_finished 9 =
      Outcome.aborted Fault.get_picture_assert sample_buffer ∧
    sample_buffer.mark_image_is_outputted 9 =
      Outcome.aborted Fault.get_picture_assert sample_buffer ∧
    sample_buffer.release_input_image 9 =
      Outcome.aborted Fault.get_picture_assert sample_buffer :=
  ⟨by decide, unknown_frame sample_buffer 9 (some 4) (by decide)⟩

/-! ## Output acknowledgement, release of the input, reset -/

/-- An assignment that changes nothing at the record it meets changes nothing. -/
theorem modify_at_fixed (g : image_data → image_data) (l : List image_data) (i : Nat)
    (h : ∀ r, l[i]? = some r → g r = r) : modify_at g l i = l := by
  induction l generalizing i with
  | nil => rfl
  | cons x xs ih =>
    cases i with
    | zero => simp [modify_at, h x (by simp)]
    | succ j => simp [modify_at, ih j (fun r hr => h r (by simpa using hr))]

/-- C13. Output acknowledgement does not evict: for a frame number that a
record of the buffer carries, `mark_image_is_outputted` completes, clears
`is_in_output_queue` of the record that the lookup finds and changes nothing
else: the buffer has the same number of records in the same positions, every
other record and every other field of that record are as before. -/
theorem output_acknowledgement (b : encoder_picture_buffer) (n : Int) (i : Nat)
    (data : image_data) (hi : b.get_picture n = some i) (hd : b.mImages[i]? = some data) :
    ∃ b', b.mark_image_is_outputted n = Outcome.done b' ∧
      b'.mEndOfStream = b.mEndOfStream ∧
      b'.mImages.length = b.mImages.length ∧
      ∀ j, b'.mImages[j]? =
        if j = i then some { data with is_in_output_queue := false } else b.mImages[j]? := by
  refine ⟨⟨modify_at (fun r => { r with is_in_output_queue := false }) b.mImages i,
    b.mEndOfStream⟩, ?_, rfl, ?_, ?_⟩
  · simp [encoder_picture_buffer.mark_image_is_outputted, hi]
  · exact modify_at_length _ _ _
  · intro j
    simp only [modify_at_getElem?]
    by_cases hj : j = i
    · subst hj
      simp [hd]
    · simp [hj]

theorem output_acknowledgement_witness :
    late_buffer.get_picture 1 = some 1 ∧ late_buffer.mImages[1]? = some late_back ∧
    ∃ b', late_buffer.mark_image_is_outputted 1 = Outcome.done b' ∧
      b'.mEndOfStream = late_buffer.mEndOfStream ∧
      b'.mImages.length = late_buffer.mImages.length ∧
      ∀ j, b'.mImages[j]? =
        if j = 1 then some { late_back with is_in_output_queue := false }
        else late_buffer.mImages[j]? :=
  ⟨by decide, by decide,
    output_acknowledgement late_buffer 1 1 late_back (by decide) (by decide)⟩

/-- C14. Release of the input is idempotent: for a frame number that a record
of the buffer carries, `release_input_image` completes and leaves the input of
the record that the lookup finds absent, with its other fields
(reconstruction, state, output flag among them) and all other records
unchanged; a second `release_input_image` of the same frame number on the
result completes too and returns that same buffer. -/
theorem release_input_idempotent (b : encoder_picture_buffer) (n : Int) (i : Nat)
    (data : image_data) (hi : b.get_picture n = some i) (hd : b.mImages[i]? = some data) :
    ∃ b', b.release_input_image n = Outcome.done b' ∧
      b'.mEndOfStream = b.mEndOfStream ∧
      b'.mImages.length = b.mImages.length ∧
      (∀ j, b'.mImages[j]? =
        if j = i then some { data with input := none } else b.mImages[j]?) ∧
      b'.release_input_image n = Outcome.done b' := by
  have hfn : (modify_at (fun r => { r with input := none }) b.mImages i).map
      image_data.frame_number = b.mImages.map image_data.frame_number :=
    modify_at_map image_data.frame_number (fun r => { r with input := none })
      (fun _ => rfl) b.mImages i
  have hi' : get_picture_loop (modify_at (fun r => { r with input := none }) b.mImages i)
      0 n = some i := by
    rw [get_picture_loop_congr _ b.mImages n hfn]
    exact hi
  refine ⟨⟨modify_at (fun r => { r with input := none }) b.mImages i,
    b.mEndOfStream⟩, ?_, rfl, ?_, ?_, ?_⟩
  · simp [encoder_picture_buffer.release_input_image, hi]
  · exact modify_at_length _ _ _
  · intro j
    simp only [modify_at_getElem?]
    by_cases hj : j = i
    · subst hj
      simp [hd]
    · simp [hj]
  · simp only [encoder_picture_buffer.release_input_image,
      encoder_picture_buffer.get_picture, hi']
    rw [modify_at_fixed (fun r => { r with input := none })]
    intro r hr
    rw [modify_at_getElem?, if_pos rfl, hd] at hr
    simp only [Option.map_some', Option.some.injEq] at hr
    rw [← hr]

theorem release_input_idempotent_witness :
    late_buffer.get_picture 1 = some 1 ∧ late_buffer.mImages[1]? = some late_back ∧
    ∃ b', late_buffer.release_input_image 1 = Outcome.done b' ∧
      b'.mEndOfStream = late_buffer.mEndOfStream ∧
      b'.mImages.length = late_buffer.mImages.length ∧
      (∀ j, b'.mImages[j]? =
        if j = 1 then some { late_back with input := none }
        else late_buffer.mImages[j]?) ∧
      b'.release_input_image 1 = Outcome.done b' :=
  ⟨by decide, by decide,
    release_input_idempotent late_buffer 1 1 late_back (by decide) (by decide)⟩

/-- C15. Reset empties and is idempotent: `reset` leaves no record and the
end-of-stream flag cleared, a second `reset` leaves that same buffer, and
afterwards `have_more_frames_to_encode` is false and
`get_next_picture_to_encode` returns `NULL`. -/
theorem reset_idempotent (b : encoder_picture_buffer) :
    b.reset.mImages = [] ∧ b.reset.mEndOfStream = false ∧
      b.reset.reset = b.reset ∧
      b.reset.have_more_frames_to_encode = false ∧
      b.reset.get_next_picture_to_encode = none := by
  have hr : b.reset = ⟨[], false⟩ := by
    simp [encoder_picture_buffer.reset, encoder_picture_buffer.flush_images, flush_loop_nil]
  rw [hr]
  refine ⟨rfl, rfl, rfl, rfl, rfl⟩

/-! ## The record just finished -/

theorem persistent_eq_mark (r r' : image_data) (v : Bool)
    (h : r.persistent = r'.persistent) :
    ({ r with mark_used := v } : image_data) = { r' with mark_used := v } := by
  cases r
  cases r'
  simp only [image_data.persistent, image_data.mk.injEq] at h ⊢
  simp only [h, and_self]

/-- After a completed `mark_phase` the record at `i0` is the record it was,
in state `state_keep_for_reference` and marked. -/
theorem mark_phase_marked (imgs : List image_data) (i0 : Nat) (s : List image_data)
    (d : image_data) (h : mark_phase imgs i0 = Except.ok s) (hd : imgs[i0]? = some d) :
    s[i0]? = some { d with state := state_keep_for_reference, mark_used := true } := by
  obtain ⟨data, s2, s3, s4, s5, _, h2, h3, h4, h5, hs⟩ := mark_phase_ok imgs i0 s h
  have hpt : ∀ r : image_data,
      image_data.persistent { r with mark_used := true } = r.persistent := fun _ => rfl
  have hp5 : s5.map image_data.persistent =
      (modify_at (fun r => { r with state := state_keep_for_reference }) imgs i0).map
        image_data.persistent := by
    rw [(mark_refs_map _ hpt _ _).1 s5 h5, (mark_refs_map _ hpt _ _).1 s4 h4,
      (mark_refs_map _ hpt _ _).1 s3 h3, (mark_refs_map _ hpt _ _).1 s2 h2,
      clear_marks_eq_map, List.map_map]
    rfl
  have hget : (s5.map image_data.persistent)[i0]? =
      ((modify_at (fun r => { r with state := state_keep_for_reference }) imgs i0).map
        image_data.persistent)[i0]? := by rw [hp5]
  rw [List.getElem?_map, List.getElem?_map, modify_at_getElem?, if_pos rfl, hd] at hget
  cases h5i : s5[i0]? with
  | none => simp [h5i] at hget
  | some r5 =>
    simp only [h5i, Option.map_some', Option.some.injEq] at hget
    rw [hs, modify_at_getElem?, if_pos rfl, h5i]
    simp only [Option.map_some', Option.some.injEq]
    exact persistent_eq_mark _ _ true hget

/-- A record that the lookup finds and that the copy loop keeps is found by
the lookup in `newImageSet` too, at the position the copy loop gives it. -/
theorem copy_kept_lookup (m : List image_data) (k : Nat) (f : Int) (i : Nat)
    (r : image_data) (hg : get_picture_loop m 0 f = some i) (hr : m[i]? = some r)
    (hk : (r.mark_used || r.is_in_output_queue) = true) :
    ∃ j, (kept_positions m k)[j]? = some (k + i) ∧ (copy_kept m)[j]? = some r ∧
      get_picture_loop (copy_kept m) 0 f = some j := by
  induction m generalizing k i with
  | nil => simp [get_picture_loop] at hg
  | cons x xs ih =>
    rw [get_picture_loop_cons] at hg
    by_cases hx : x.frame_number = f
    · simp only [hx, if_true, Option.some.injEq] at hg
      subst hg
      simp only [List.getElem?_cons_zero, Option.some.injEq] at hr
      subst hr
      refine ⟨0, ?_, ?_, ?_⟩
      · simp [kept_positions, hk]
      · simp [copy_kept, hk]
      · simp [copy_kept, hk, get_picture_loop, hx]
    · simp only [hx, if_false, Option.map_eq_some'] at hg
      obtain ⟨i', hi', rfl⟩ := hg
      simp only [List.getElem?_cons_succ] at hr
      obtain ⟨j, hj1, hj2, hj3⟩ := ih (k + 1) i' hi' hr
      cases hxk : (x.mark_used || x.is_in_output_queue) with
      | false =>
        refine ⟨j, ?_, ?_, ?_⟩
        · simp only [kept_positions, hxk, Bool.false_eq_true, if_false]
          rw [hj1]
          congr 1
          omega
        · simp only [copy_kept, hxk, Bool.false_eq_true, if_false]
          exact hj2
        · simp only [copy_kept, hxk, Bool.false_eq_true, if_false]
          exact hj3
      | true =>
        refine ⟨j + 1, ?_, ?_, ?_⟩
        · simp only [kept_positions, hxk, if_true, List.getElem?_cons_succ]
          rw [hj1]
          congr 1
          omega
        · simp only [copy_kept, hxk, if_true, List.getElem?_cons_succ]
          exact hj2
        · simp only [copy_kept, hxk, if_true]
          rw [get_picture_loop_cons]
          simp [hx, hj3]

/-- C18. The record just finished survives its own eviction pass: when
`mark_encoding_finished(f)` completes, the record that the lookup found for `f`
is still in the buffer, unchanged but for its state, which is
`state_keep_for_reference`, and for the scratch bit; a lookup of `f` finds it
again; whatever its output flag and the lists say.  Hence the buffer is not
empty. -/
theorem finished_record_survives (b b' : encoder_picture_buffer) (f : Int)
    (h : b.mark_encoding_finished f = Outcome.done b') :
    ∃ i0 d j, b.get_picture f = some i0 ∧ b.mImages[i0]? = some d ∧
      (origin b (Op.mark_encoding_finished f))[j]? = some (some i0) ∧
      b'.mImages[j]? =
        some { d with state := state_keep_for_reference, mark_used := true } ∧
      b'.get_picture f = some j ∧ b'.mImages ≠ [] := by
  obtain ⟨i0, d, s, hi0, hd, _, hs, hb'⟩ := mark_encoding_finished_done b b' f h
  have hm := mark_phase_marked b.mImages i0 s d hs hd
  have hfn : s.map image_data.frame_number = b.mImages.map image_data.frame_number := by
    rw [mark_phase_map image_data.frame_number (fun _ _ => rfl) b.mImages i0 s hs,
      modify_at_map image_data.frame_number
        (fun r => { r with state := state_keep_for_reference }) (fun _ => rfl)]
  have hgs : get_picture_loop s 0 f = some i0 := by
    rw [get_picture_loop_congr s b.mImages f hfn]
    exact hi0
  obtain ⟨j, hj1, hj2, hj3⟩ := copy_kept_lookup s 0 f i0 _ hgs hm rfl
  have ho : origin b (Op.mark_encoding_finished f) = (kept_positions s 0).map some := by
    simp [origin, encoder_picture_buffer.get_picture, hi0, hs]
  refine ⟨i0, d, j, hi0, hd, ?_, ?_, ?_, ?_⟩
  · rw [ho, List.getElem?_map, hj1]
    simp
  · rw [hb']
    exact hj2
  · rw [hb']
    exact hj3
  · rw [hb']
    intro hnil
    simp only at hnil
    rw [hnil] at hj2
    simp at hj2

theorem finished_record_survives_witness :
    sample_buffer.mark_encoding_finished 2 = Outcome.done sample_buffer_finished ∧
    ∃ i0 d j, sample_buffer.get_picture 2 = some i0 ∧ sample_buffer.mImages[i0]? = some d ∧
      (origin sample_buffer (Op.mark_encoding_finished 2))[j]? = some (some i0) ∧
      sample_buffer_finished.mImages[j]? =
        some { d with state := state_keep_for_reference, mark_used := true } ∧
      sample_buffer_finished.get_picture 2 = some j ∧ sample_buffer_finished.mImages ≠ [] :=
  ⟨by decide,
    finished_record_survives sample_buffer sample_buffer_finished 2 (by decide)⟩

/-! ## The marking loops in closed form -/

theorem first_marked_map {β : Type} (p : image_data → β)
    (hp : ∀ (r : image_data) (v : Bool), p { r with mark_used := v } = p r)
    (c : Int → Bool) (seen : List Int) (l : List image_data) :
    (first_marked c seen l).map p = l.map p := by
  induction l generalizing seen with
  | nil => rfl
  | cons r rs ih => simp [first_marked, hp, ih]

/-- Only the numbers not yet seen matter. -/
theorem first_marked_congr (c c' : Int → Bool) (seen : List Int) (l : List image_data)
    (h : ∀ x, x ∉ seen → c x = c' x) : first_marked c seen l = first_marked c' seen l := by
  induction l generalizing seen with
  | nil => rfl
  | cons r rs ih =>
    simp only [first_marked]
    rw [ih (r.frame_number :: seen) (fun x hx => h x (fun hm => hx (List.mem_cons_of_mem _ hm)))]
    by_cases hr : r.frame_number ∈ seen
    · simp [hr]
    · simp [hr, h _ hr]

/-- The marks in closed form do not depend on the marks before. -/
theorem first_marked_persistent (c : Int → Bool) (seen : List Int) (l l' : List image_data)
    (h : l.map image_data.persistent = l'.map image_data.persistent) :
    first_marked c seen l = first_marked c seen l' := by
  induction l generalizing seen l' with
  | nil =>
    cases l' with
    | nil => rfl
    | cons x xs => simp at h
  | cons r rs ih =>
    cases l' with
    | nil => simp at h
    | cons x xs =>
      simp only [List.map_cons, List.cons.injEq] at h
      have hfn : r.frame_number = x.frame_number := by
        have := congrArg image_data.frame_number h.1
        simpa [image_data.persistent] using this
      have hv : (c r.frame_number && decide (r.frame_number ∉ seen)) =
          (c x.frame_number && decide (x.frame_number ∉ seen)) := by rw [hfn]
      have ht : first_marked c (r.frame_number :: seen) rs =
          first_marked c (x.frame_number :: seen) xs := by
        rw [hfn]
        exact ih _ xs h.2
      simp only [first_marked]
      rw [ht, hv]
      exact congrArg (fun y => y :: first_marked c (x.frame_number :: seen) xs)
        (persistent_eq_mark r x _ h.1)

theorem first_marked_none (seen : List Int) (l : List image_data) :
    first_marked (fun _ => false) seen l = clear_marks l := by
  induction l generalizing seen with
  | nil => rfl
  | cons r rs ih => simp [first_marked, clear_marks, ih]

/-- One step of a marking loop: marking the record that the lookup finds for
`g` adds `g` to the numbers to mark. -/
theorem first_marked_step (c : Int → Bool) (seen : List Int) (l : List image_data)
    (g : Int) (i : Nat) (hg : get_picture_loop (first_marked c seen l) 0 g = some i)
    (hs : g ∉ seen) :
    modify_at (fun r => { r with mark_used := true }) (first_marked c seen l) i =
      first_marked (fun x => decide (x = g) || c x) seen l := by
  induction l generalizing seen i with
  | nil => simp [first_marked, get_picture_loop] at hg
  | cons r rs ih =>
    simp only [first_marked] at hg ⊢
    rw [get_picture_loop_cons] at hg
    by_cases hr : r.frame_number = g
    · simp only [hr, if_true, Option.some.injEq] at hg
      subst hg
      subst hr
      simp only [modify_at, List.cons.injEq]
      constructor
      · simp [hs]
      · exact first_marked_congr _ _ _ _ (fun x hx => by
          have hne : x ≠ r.frame_number := fun he => hx (he ▸ List.mem_cons_self _ _)
          simp [hne])
    · simp only [hr, if_false, Option.map_eq_some'] at hg
      obtain ⟨j, hj, rfl⟩ := hg
      simp only [modify_at, List.cons.injEq]
      constructor
      · simp [hr]
      · exact ih (r.frame_number :: seen) j hj (by
          simp only [List.mem_cons, not_or]
          exact ⟨fun he => hr he.symm, hs⟩)

/-- A marking loop completes only if every number of its list is carried by a
record. -/
theorem mark_refs_present (l : List image_data) (fs : List Int) (l' : List image_data)
    (h : mark_refs l fs = Except.ok l') :
    ∀ g ∈ fs, ∃ r ∈ l, r.frame_number = g := by
  induction fs generalizing l with
  | nil => simp
  | cons f fs ih =>
    simp only [mark_refs] at h
    cases hg : get_picture_loop l 0 f with
    | none => simp [hg] at h
    | some i =>
      simp only [hg] at h
      intro g hgm
      rcases List.mem_cons.1 hgm with rfl | hin
      · obtain ⟨⟨r, hr, hf⟩, _⟩ := get_picture_loop_some l g i hg
        exact ⟨r, List.getElem?_mem hr, hf⟩
      · obtain ⟨r, hr, hf⟩ := ih _ h g hin
        have hmem : g ∈ (modify_at (fun r => { r with mark_used := true }) l i).map
            image_data.frame_number := List.mem_map.2 ⟨r, hr, hf⟩
        rw [modify_at_map image_data.frame_number
          (fun r => { r with mark_used := true }) (fun _ => rfl)] at hmem
        obtain ⟨r0, hr0, hf0⟩ := List.mem_map.1 hmem
        exact ⟨r0, hr0, hf0⟩

/-- A marking loop on records whose marks are in closed form: when every number
of its list is carried by a record, it completes and adds the list to the
numbers to mark. -/
theorem mark_refs_closed (c : Int → Bool) (l : List image_data) (fs : List Int)
    (h : ∀ g ∈ fs, ∃ r ∈ l, r.frame_number = g) :
    mark_refs (first_marked c [] l) fs =
      Except.ok (first_marked (fun x => decide (x ∈ fs) || c x) [] l) := by
  induction fs generalizing c with
  | nil => simp [mark_refs]
  | cons f fs ih =>
    simp only [mark_refs]
    cases hg : get_picture_loop (first_marked c [] l) 0 f with
    | none =>
      rw [get_picture_loop_none] at hg
      obtain ⟨r, hr, hf⟩ := h f (List.mem_cons_self _ _)
      have hmem : f ∈ (first_marked c [] l).map image_data.frame_number := by
        rw [first_marked_map image_data.frame_number (fun _ _ => rfl)]
        exact List.mem_map.2 ⟨r, hr, hf⟩
      obtain ⟨r0, hr0, hf0⟩ := List.mem_map.1 hmem
      exact absurd hf0 (hg r0 hr0)
    | some i =>
      simp only
      rw [first_marked_step c [] l f i hg (List.not_mem_nil f),
        ih _ (fun g hgm => h g (List.mem_cons_of_mem _ hgm))]
      congr 1
      apply first_marked_congr
      intro x _
      by_cases h1 : x = f <;> by_cases h2 : x ∈ fs <;> simp [h1, h2]

/-- The part of `mark_encoding_finished` before the copy, in closed form: when
every number in the four lists of the record at `i0` is carried by a record, it
completes, the record at `i0` is in state `state_keep_for_reference`, and the
marks are on the first record with the frame number of the record at `i0` and
on the first record with each listed number. -/
theorem mark_phase_closed (imgs : List image_data) (f : Int) (i0 : Nat) (d : image_data)
    (hi : get_picture_loop imgs 0 f = some i0) (hd : imgs[i0]? = some d)
    (hp : ∀ g ∈ d.ref0 ++ d.ref1 ++ d.longterm ++ d.keep, ∃ r ∈ imgs, r.frame_number = g) :
    mark_phase imgs i0 = Except.ok (first_marked
      (fun x => decide (x = f ∨ x ∈ d.ref0 ++ d.ref1 ++ d.longterm ++ d.keep)) []
      (modify_at (fun r => { r with state := state_keep_for_reference }) imgs i0)) := by
  have hX : ∀ g ∈ d.ref0 ++ d.ref1 ++ d.longterm ++ d.keep,
      ∃ r ∈ modify_at (fun r => { r with state := state_keep_for_reference }) imgs i0,
        r.frame_number = g := by
    intro g hg
    obtain ⟨r, hr, hf⟩ := hp g hg
    have hmem : g ∈ (modify_at (fun r => { r with state := state_keep_for_reference })
        imgs i0).map image_data.frame_number := by
      rw [modify_at_map image_data.frame_number
        (fun r => { r with state := state_keep_for_reference }) (fun _ => rfl)]
      exact List.mem_map.2 ⟨r, hr, hf⟩
    obtain ⟨r0, hr0, hf0⟩ := List.mem_map.1 hmem
    exact ⟨r0, hr0, hf0⟩
  have hdata : (clear_marks (modify_at (fun r => { r with state := state_keep_for_reference })
      imgs i0))[i0]? =
      some { d with state := state_keep_for_reference, mark_used := false } := by
    rw [clear_marks_eq_map, List.getElem?_map, modify_at_getElem?, if_pos rfl, hd]
    rfl
  unfold mark_phase
  simp only [hdata]
  rw [← first_marked_none [] (modify_at (fun r => { r with state := state_keep_for_reference })
    imgs i0)]
  rw [mark_refs_closed _ _ d.ref0 (fun g hg => hX g (by simp [hg]))]
  simp only
  rw [mark_refs_closed _ _ d.ref1 (fun g hg => hX g (by simp [hg]))]
  simp only
  rw [mark_refs_closed _ _ d.longterm (fun g hg => hX g (by simp [hg]))]
  simp only
  rw [mark_refs_closed _ _ d.keep (fun g hg => hX g (by simp [hg]))]
  simp only
  have hi5 : get_picture_loop (first_marked (fun x => decide (x ∈ d.keep) ||
      (decide (x ∈ d.longterm) || (decide (x ∈ d.ref1) ||
        (decide (x ∈ d.ref0) || false)))) []
      (modify_at (fun r => { r with state := state_keep_for_reference }) imgs i0)) 0 f =
      some i0 := by
    rw [get_picture_loop_congr _ imgs f]
    · exact hi
    · rw [first_marked_map image_data.frame_number (fun _ _ => rfl),
        modify_at_map image_data.frame_number
          (fun r => { r with state := state_keep_for_reference }) (fun _ => rfl)]
  rw [first_marked_step _ [] _ f i0 hi5 (List.not_mem_nil f)]
  congr 1
  apply first_marked_congr
  intro x _
  by_cases c0 : x = f <;> by_cases c1 : x ∈ d.ref0 <;> by_cases c2 : x ∈ d.ref1 <;>
    by_cases c3 : x ∈ d.longterm <;> by_cases c4 : x ∈ d.keep <;>
    simp [c0, c1, c2, c3, c4]

theorem present_of_map_eq (l l' : List image_data) (g : Int)
    (h : l.map image_data.frame_number = l'.map image_data.frame_number)
    (hp : ∃ r ∈ l, r.frame_number = g) : ∃ r ∈ l', r.frame_number = g := by
  obtain ⟨r, hr, hf⟩ := hp
  have hmem : g ∈ l.map image_data.frame_number := List.mem_map.2 ⟨r, hr, hf⟩
  rw [h] at hmem
  obtain ⟨r0, hr0, hf0⟩ := List.mem_map.1 hmem
  exact ⟨r0, hr0, hf0⟩

/-- The part of `mark_encoding_finished` before the copy completes only if every
number in the four lists of the record at `i0` is carried by a record. -/
theorem mark_phase_present (imgs : List image_data) (i0 : Nat) (s : List image_data)
    (d : image_data) (h : mark_phase imgs i0 = Except.ok s) (hd : imgs[i0]? = some d) :
    ∀ g ∈ d.ref0 ++ d.ref1 ++ d.longterm ++ d.keep, ∃ r ∈ imgs, r.frame_number = g := by
  obtain ⟨data, s2, s3, s4, s5, hdata, h2, h3, h4, h5, _⟩ := mark_phase_ok imgs i0 s h
  obtain ⟨d', hd', _, e0, e1, el, ek, _, _⟩ := mark_phase_data imgs i0 data hdata
  rw [hd, Option.some.injEq] at hd'
  subst hd'
  have hpt : ∀ r : image_data,
      image_data.frame_number { r with mark_used := true } = r.frame_number := fun _ => rfl
  have f1 : (clear_marks (modify_at (fun r => { r with state := state_keep_for_reference })
      imgs i0)).map image_data.frame_number = imgs.map image_data.frame_number := by
    rw [clear_marks_eq_map, List.map_map,
      ← modify_at_map image_data.frame_number
        (fun r => { r with state := state_keep_for_reference }) (fun _ => rfl) imgs i0]
    rfl
  have f2 : s2.map image_data.frame_number = imgs.map image_data.frame_number := by
    rw [(mark_refs_map _ hpt _ _).1 s2 h2, f1]
  have f3 : s3.map image_data.frame_number = imgs.map image_data.frame_number := by
    rw [(mark_refs_map _ hpt _ _).1 s3 h3, f2]
  have f4 : s4.map image_data.frame_number = imgs.map image_data.frame_number := by
    rw [(mark_refs_map _ hpt _ _).1 s4 h4, f3]
  intro g hg
  simp only [List.mem_append] at hg
  rcases hg with ((hg | hg) | hg) | hg
  · exact present_of_map_eq _ imgs g f1 (mark_refs_present _ _ s2 h2 g (e0 ▸ hg))
  · exact present_of_map_eq _ imgs g f2 (mark_refs_present _ _ s3 h3 g (e1 ▸ hg))
  · exact present_of_map_eq _ imgs g f3 (mark_refs_present _ _ s4 h4 g (el ▸ hg))
  · exact present_of_map_eq _ imgs g f4 (mark_refs_present _ _ s5 h5 g (ek ▸ hg))

/-- The only assertion `mark_encoding_finished` can stop at is that of
`get_picture`. -/
theorem mark_encoding_finished_cases (b : encoder_picture_buffer) (f : Int) :
    (∃ b', b.mark_encoding_finished f = Outcome.done b') ∨
      ∃ bb, b.mark_encoding_finished f = Outcome.aborted Fault.get_picture_assert bb := by
  unfold encoder_picture_buffer.mark_encoding_finished
  cases hg : b.get_picture f with
  | none => exact Or.inr ⟨b, rfl⟩
  | some i0 =>
    cases hm : mark_phase b.mImages i0 with
    | error s => exact Or.inr ⟨{ b with mImages := s }, by simp only [hm]⟩
    | ok s => exact Or.inl ⟨{ b with mImages := copy_kept s }, by simp only [hm]⟩

/-! ## Missing references -/

/-- C12. Missing reference is fatal: for a frame number `f` that a record of
the buffer carries, `mark_encoding_finished(f)` completes exactly when every
frame number in the four lists of the record found for `f` is carried by a
record of the buffer, and it stops at the assertion of `get_picture` exactly
when some listed frame number is carried by none. -/
theorem missing_reference_fatal (b : encoder_picture_buffer) (f : Int) (i0 : Nat)
    (hlive : b.get_picture f = some i0) :
    ((∃ b', b.mark_encoding_finished f = Outcome.done b') ↔
      ∀ g ∈ b.lists_of f, ∃ r ∈ b.mImages, r.frame_number = g) ∧
    ((∃ bb, b.mark_encoding_finished f = Outcome.aborted Fault.get_picture_assert bb) ↔
      ∃ g ∈ b.lists_of f, ∀ r ∈ b.mImages, r.frame_number ≠ g) := by
  obtain ⟨⟨d, hd, _⟩, _⟩ := get_picture_loop_some b.mImages f i0 hlive
  rw [lists_of_eq b f i0 d hlive hd]
  have hdone : (∃ b', b.mark_encoding_finished f = Outcome.done b') ↔
      ∀ g ∈ d.ref0 ++ d.ref1 ++ d.longterm ++ d.keep,
        ∃ r ∈ b.mImages, r.frame_number = g := by
    constructor
    · rintro ⟨b', hb'⟩
      obtain ⟨i1, d1, s, hi1, hd1, _, hs, _⟩ := mark_encoding_finished_done b b' f hb'
      have hii : i1 = i0 := by
        have h1 : b.get_picture f = some i1 := hi1
        rw [hlive, Option.some.injEq] at h1
        exact h1.symm
      subst hii
      rw [hd, Option.some.injEq] at hd1
      subst hd1
      exact mark_phase_present b.mImages i1 s d hs hd
    · intro hall
      refine ⟨{ b with mImages := copy_kept (first_marked
        (fun x => decide (x = f ∨ x ∈ d.ref0 ++ d.ref1 ++ d.longterm ++ d.keep)) []
        (modify_at (fun r => { r with state := state_keep_for_reference }) b.mImages i0)) },
        ?_⟩
      unfold encoder_picture_buffer.mark_encoding_finished
      simp only [hlive, mark_phase_closed b.mImages f i0 d hlive hd hall]
  refine ⟨hdone, ?_⟩
  constructor
  · rintro ⟨bb, hbb⟩
    by_contra hcon
    have hall : ∀ g ∈ d.ref0 ++ d.ref1 ++ d.longterm ++ d.keep,
        ∃ r ∈ b.mImages, r.frame_number = g := by
      intro g hg
      by_contra hno
      exact hcon ⟨g, hg, fun r hr hf => hno ⟨r, hr, hf⟩⟩
    obtain ⟨b', hb'⟩ := hdone.2 hall
    rw [hb'] at hbb
    cases hbb
  · rintro ⟨g, hg, habs⟩
    rcases mark_encoding_finished_cases b f with ⟨b', hb'⟩ | hab
    · obtain ⟨r, hr, hf⟩ := hdone.1 ⟨b', hb'⟩ g hg
      exact absurd hf (habs r hr)
    · exact hab

theorem missing_reference_fatal_witness :
    sample_buffer_finished.get_picture 1 = some 0 ∧
    ((∃ b', sample_buffer_finished.mark_encoding_finished 1 = Outcome.done b') ↔
      ∀ g ∈ sample_buffer_finished.lists_of 1,
        ∃ r ∈ sample_buffer_finished.mImages, r.frame_number = g) ∧
    ((∃ bb, sample_buffer_finished.mark_encoding_finished 1 =
        Outcome.aborted Fault.get_picture_assert bb) ↔
      ∃ g ∈ sample_buffer_finished.lists_of 1,
        ∀ r ∈ sample_buffer_finished.mImages, r.frame_number ≠ g) :=
  ⟨by decide, missing_reference_fatal sample_buffer_finished 1 0 (by decide)⟩

/-! ## A second pass -/

/-- With the marks in closed form, the record that the lookup finds for a number
to mark is marked. -/
theorem first_marked_found (c : Int → Bool) (seen : List Int) (l : List image_data)
    (g : Int) (i : Nat) (hg : get_picture_loop (first_marked c seen l) 0 g = some i)
    (hs : g ∉ seen) (hc : c g = true) :
    ∃ r, (first_marked c seen l)[i]? = some r ∧ r.mark_used = true := by
  induction l generalizing seen i with
  | nil => simp [first_marked, get_picture_loop] at hg
  | cons x xs ih =>
    simp only [first_marked] at hg ⊢
    rw [get_picture_loop_cons] at hg
    by_cases hx : x.frame_number = g
    · simp only [hx, if_true, Option.some.injEq] at hg
      subst hg
      subst hx
      exact ⟨_, List.getElem?_cons_zero, by simp [hc, hs]⟩
    · simp only [hx, if_false, Option.map_eq_some'] at hg
      obtain ⟨j, hj, rfl⟩ := hg
      obtain ⟨r, hr, hm⟩ := ih (x.frame_number :: seen) j hj (by
        simp only [List.mem_cons, not_or]
        exact ⟨fun he => hx he.symm, hs⟩)
      exact ⟨r, by simpa using hr, hm⟩

/-- The copy loop keeps the marks in closed form: marking the kept records
anew, for the same numbers, gives them the marks they have. -/
theorem first_marked_copy_kept (c : Int → Bool) (seen1 seen2 : List Int)
    (l : List image_data) (h : ∀ x, c x = true → (x ∈ seen1 ↔ x ∈ seen2)) :
    first_marked c seen2 (copy_kept (first_marked c seen1 l)) =
      copy_kept (first_marked c seen1 l) := by
  induction l generalizing seen1 seen2 with
  | nil => rfl
  | cons x xs ih =>
    simp only [first_marked, copy_kept]
    by_cases hk : ((c x.frame_number && decide (x.frame_number ∉ seen1)) ||
        x.is_in_output_queue) = true
    · simp only [hk, if_true, first_marked]
      rw [ih (x.frame_number :: seen1) (x.frame_number :: seen2) (fun y hy => by
        simp only [List.mem_cons]
        rw [h y hy])]
      congr 1
      cases hc : c x.frame_number with
      | false => simp
      | true =>
        have := h _ hc
        simp [this]
    · simp only [hk, if_false]
      simp only [Bool.or_eq_true, Bool.and_eq_true, decide_eq_true_eq, not_or, not_and,
        not_not] at hk
      refine ih (x.frame_number :: seen1) seen2 (fun y hy => ?_)
      simp only [List.mem_cons]
      constructor
      · rintro (rfl | hin)
        · exact (h _ hy).1 (hk.1 hy)
        · exact (h y hy).1 hin
      · intro hin
        exact Or.inr ((h y hy).2 hin)

theorem copy_kept_idem (l : List image_data) : copy_kept (copy_kept l) = copy_kept l := by
  rw [copy_kept_eq_filter, copy_kept_eq_filter, List.filter_filter]
  simp

/-- C19. The eviction pass is idempotent: when `mark_encoding_finished(f)`
completes, a second `mark_encoding_finished(f)` on the buffer it leaves
completes too (every listed frame number is still carried by a record) and
leaves that very buffer: the same records in the same order with the same
fields, none removed.  Frame numbers need not be distinct. -/
theorem finished_idempotent (b b' : encoder_picture_buffer) (f : Int)
    (h : b.mark_encoding_finished f = Outcome.done b') :
    b'.mark_encoding_finished f = Outcome.done b' := by
  obtain ⟨i0, d, s, hi0, hd, _, hs, hb'⟩ := mark_encoding_finished_done b b' f h
  have hp := mark_phase_present b.mImages i0 s d hs hd
  have hs' : s = first_marked
      (fun x => decide (x = f ∨ x ∈ d.ref0 ++ d.ref1 ++ d.longterm ++ d.keep)) []
      (modify_at (fun r => { r with state := state_keep_for_reference }) b.mImages i0) := by
    have hcl := mark_phase_closed b.mImages f i0 d hi0 hd hp
    rw [hs] at hcl
    exact Except.ok.inj hcl
  have hm := mark_phase_marked b.mImages i0 s d hs hd
  have hfn : s.map image_data.frame_number = b.mImages.map image_data.frame_number := by
    rw [mark_phase_map image_data.frame_number (fun _ _ => rfl) b.mImages i0 s hs,
      modify_at_map image_data.frame_number
        (fun r => { r with state := state_keep_for_reference }) (fun _ => rfl)]
  have hgs : get_picture_loop s 0 f = some i0 := by
    rw [get_picture_loop_congr s b.mImages f hfn]
    exact hi0
  obtain ⟨j, _, hj2, hj3⟩ := copy_kept_lookup s 0 f i0 _ hgs hm rfl
  -- every listed number is carried by a record that the first pass kept
  have hpres : ∀ g ∈ d.ref0 ++ d.ref1 ++ d.longterm ++ d.keep,
      ∃ r ∈ copy_kept s, r.frame_number = g := by
    intro g hg
    obtain ⟨r0, hr0, hf0⟩ := present_of_map_eq b.mImages s g hfn.symm (hp g hg)
    cases hgg : get_picture_loop s 0 g with
    | none => exact absurd hf0 ((get_picture_loop_none s g).1 hgg r0 hr0)
    | some ig =>
      have hgg' := hgg
      rw [hs'] at hgg'
      obtain ⟨r, hr, hmark⟩ := first_marked_found _ [] _ g ig hgg' (List.not_mem_nil g)
        (decide_eq_true (Or.inr hg))
      rw [← hs'] at hr
      obtain ⟨jg, _, _, hjg⟩ := copy_kept_lookup s 0 g ig r hgg hr (by simp [hmark])
      obtain ⟨⟨r1, hr1, hf1⟩, _⟩ := get_picture_loop_some (copy_kept s) g jg hjg
      exact ⟨r1, List.getElem?_mem hr1, hf1⟩
  have hfix : modify_at (fun r => { r with state := state_keep_for_reference })
      (copy_kept s) j = copy_kept s := by
    apply modify_at_fixed
    intro r hr
    rw [hj2, Option.some.injEq] at hr
    rw [← hr]
  have hcl2 := mark_phase_closed (copy_kept s) f j
    { d with state := state_keep_for_reference, mark_used := true } hj3 hj2 hpres
  rw [hfix] at hcl2
  have hsame : first_marked
      (fun x => decide (x = f ∨ x ∈ d.ref0 ++ d.ref1 ++ d.longterm ++ d.keep)) []
      (copy_kept s) = copy_kept s := by
    have := first_marked_copy_kept
      (fun x => decide (x = f ∨ x ∈ d.ref0 ++ d.ref1 ++ d.longterm ++ d.keep)) [] []
      (modify_at (fun r => { r with state := state_keep_for_reference }) b.mImages i0)
      (fun _ _ => Iff.rfl)
    rw [← hs'] at this
    exact this
  simp only at hcl2
  rw [hsame] at hcl2
  rw [hb']
  unfold encoder_picture_buffer.mark_encoding_finished encoder_picture_buffer.get_picture
  simp only [hj3, hcl2, copy_kept_idem]

theorem finished_idempotent_witness :
    ∃ b', twin_buffer.mark_encoding_finished 2 = Outcome.done b' ∧
      b'.mImages.map image_data.frame_number = [1, 2] ∧
      b'.mark_encoding_finished 2 = Outcome.done b' :=
  ⟨_, rfl, by decide, finished_idempotent twin_buffer _ 2 rfl⟩

/-! ## Insertion order and encoding order -/

theorem run_append (b : encoder_picture_buffer) (xs ys : List Op) :
    run b (xs ++ ys) =
      match run b xs with
      | Outcome.done b1 => run b1 ys
      | Outcome.aborted flt b1 => Outcome.aborted flt b1 := by
  induction xs generalizing b with
  | nil => rfl
  | cons x xs ih =>
    simp only [List.cons_append, run]
    cases step b x with
    | done b1 => exact ih b1
    | aborted flt b1 => rfl

/-- Insertions never abort; they append their records in order. -/
theorem run_insert_all (b : encoder_picture_buffer) (ps : List (Option Nat × Int)) :
    run b (insert_all ps) = Outcome.done
      ⟨b.mImages ++ ps.map (fun p => new_image_data p.1 p.2), b.mEndOfStream⟩ := by
  induction ps generalizing b with
  | nil => simp [insert_all, run]
  | cons p ps ih =>
    simp only [insert_all, List.map_cons, run, step,
      encoder_picture_buffer.insert_next_image_in_encoding_order]
    have := ih ⟨b.mImages ++ [new_image_data p.1 p.2], b.mEndOfStream⟩
    simp only [insert_all] at this
    rw [this]
    simp

/-- The lookup passes over records that do not carry the number. -/
theorem get_picture_loop_skip (pre l : List image_data) (f : Int)
    (h : ∀ r ∈ pre, r.frame_number ≠ f) :
    get_picture_loop (pre ++ l) 0 f =
      (get_picture_loop l 0 f).map (fun j => j + pre.length) := by
  induction pre with
  | nil => simp
  | cons x xs ih =>
    rw [List.cons_append, get_picture_loop_cons,
      if_neg (h x (List.mem_cons_self _ _)),
      ih (fun r hr => h r (List.mem_cons_of_mem _ hr))]
    cases get_picture_loop l 0 f with
    | none => rfl
    | some j => simp; omega

theorem modify_at_skip (g : image_data → image_data) (pre : List image_data)
    (x : image_data) (rest : List image_data) :
    modify_at g (pre ++ x :: rest) pre.length = pre ++ g x :: rest := by
  induction pre with
  | nil => rfl
  | cons y ys ih => simp [modify_at, ih]

/-- Starting the encoding of freshly inserted pictures, in insertion order,
puts each of them in `state_encoding` and changes nothing else. -/
theorem run_start_all (ps : List (Option Nat × Int)) (pre rest : List image_data)
    (eos : Bool) (hnd : (ps.map Prod.snd).Nodup)
    (hpre : ∀ r ∈ pre, r.frame_number ∉ ps.map Prod.snd) :
    run ⟨pre ++ (ps.map (fun p => new_image_data p.1 p.2) ++ rest), eos⟩
        (start_all (ps.map Prod.snd)) =
      Outcome.done ⟨pre ++ (ps.map (fun p =>
        { new_image_data p.1 p.2 with state := state_encoding }) ++ rest), eos⟩ := by
  induction ps generalizing pre with
  | nil => simp [start_all, run]
  | cons p ps ih =>
    simp only [List.map_cons, List.nodup_cons] at hnd
    have hlook : get_picture_loop
        (pre ++ (new_image_data p.1 p.2 ::
          (ps.map (fun p => new_image_data p.1 p.2) ++ rest))) 0 p.2 = some pre.length := by
      rw [get_picture_loop_skip pre _ p.2 (fun r hr hf =>
        hpre r hr (by rw [hf]; simp))]
      simp [get_picture_loop, new_image_data]
    simp only [start_all, List.map_cons, List.cons_append, run, step,
      encoder_picture_buffer.mark_encoding_started, encoder_picture_buffer.get_picture,
      hlook, modify_at_skip]
    have := ih (pre ++ [{ new_image_data p.1 p.2 with state := state_encoding }]) hnd.2
      (by
        intro r hr
        rcases List.mem_append.1 hr with h1 | h1
        · exact fun hm => hpre r h1 (by simp [hm])
        · simp only [List.mem_singleton] at h1
          subst h1
          exact hnd.1)
    simp only [start_all, List.append_assoc, List.singleton_append] at this
    exact this

/-- The scan for the next picture passes over records at `state_encoding` or
above. -/
theorem next_to_encode_loop_skip (pre l : List image_data)
    (h : ∀ r ∈ pre, ¬ r.state.rank < state_encoding.rank) :
    next_to_encode_loop (pre ++ l) 0 =
      (next_to_encode_loop l 0).map (fun j => j + pre.length) := by
  induction pre with
  | nil => simp
  | cons x xs ih =>
    rw [List.cons_append, next_to_encode_loop_cons,
      if_neg (h x (List.mem_cons_self _ _)),
      ih (fun r hr => h r (List.mem_cons_of_mem _ hr))]
    cases next_to_encode_loop l 0 with
    | none => rfl
    | some j => simp; omega

/-- C16. Insertion order is the encoding order: after pictures with pairwise
distinct frame numbers have been inserted into the empty buffer and
`mark_encoding_started` has been called for the first `k` of them, in order,
and nothing else, the buffer holds the pictures in insertion order and
`get_next_picture_to_encode` returns the record at position `k`, the picture
inserted next after those `k` (the first one for `k = 0`), and `NULL` once all
have been started. -/
theorem encoding_order (ps : List (Option Nat × Int)) (k : Nat)
    (hnd : (ps.map Prod.snd).Nodup) :
    ∃ b, run encoder_picture_buffer_ctor
        (insert_all ps ++ start_all ((ps.take k).map Prod.snd)) = Outcome.done b ∧
      b.mImages.map image_data.frame_number = ps.map Prod.snd ∧
      b.get_next_picture_to_encode = if k < ps.length then some k else none := by
  have hsplit : ps.map (fun p => new_image_data p.1 p.2) =
      (ps.take k).map (fun p => new_image_data p.1 p.2) ++
        (ps.drop k).map (fun p => new_image_data p.1 p.2) := by
    rw [← List.map_append, List.take_append_drop]
  have hndk : ((ps.take k).map Prod.snd).Nodup :=
    List.Nodup.sublist (List.Sublist.map _ (List.take_sublist k ps)) hnd
  have hrun := run_start_all (ps.take k) []
    ((ps.drop k).map (fun p => new_image_data p.1 p.2)) false hndk
    (fun r hr => absurd hr (List.not_mem_nil r))
  refine ⟨⟨[] ++ ((ps.take k).map (fun p =>
      { new_image_data p.1 p.2 with state := state_encoding }) ++
      (ps.drop k).map (fun p => new_image_data p.1 p.2)), false⟩, ?_, ?_, ?_⟩
  · rw [run_append, run_insert_all]
    simp only [encoder_picture_buffer_ctor]
    rw [hsplit]
    exact hrun
  · simp only [List.nil_append, List.map_append, List.map_map]
    have hfun : (image_data.frame_number ∘ fun p : Option Nat × Int =>
        { new_image_data p.1 p.2 with state := state_encoding }) = Prod.snd := by
      funext p
      rfl
    have hfun2 : (image_data.frame_number ∘ fun p : Option Nat × Int =>
        new_image_data p.1 p.2) = Prod.snd := by
      funext p
      rfl
    rw [hfun, hfun2, ← List.map_append, List.take_append_drop]
  · simp only [encoder_picture_buffer.get_next_picture_to_encode, List.nil_append]
    rw [next_to_encode_loop_skip _ _ (fun r hr => by
      obtain ⟨p, _, rfl⟩ := List.mem_map.1 hr
      simp [image_data_state.rank])]
    by_cases hk : k < ps.length
    · simp only [hk, if_true]
      cases hd : ps.drop k with
      | nil =>
        have := congrArg List.length hd
        simp at this
        omega
      | cons p rest =>
        simp only [List.map_cons, next_to_encode_loop_cons]
        simp [new_image_data, image_data_ctor, image_data_state.rank]
        omega
    · simp only [hk, if_false]
      rw [List.drop_of_length_le (by omega)]
      rfl

theorem encoding_order_witness :
    (sample_pictures.map Prod.snd).Nodup ∧
    ∃ b, run encoder_picture_buffer_ctor
        (insert_all sample_pictures ++ start_all ((sample_pictures.take 2).map Prod.snd)) =
          Outcome.done b ∧
      b.mImages.map image_data.frame_number = sample_pictures.map Prod.snd ∧
      b.get_next_picture_to_encode = if 2 < sample_pictures.length then some 2 else none :=
  ⟨by decide, encoding_order sample_pictures 2 (by decide)⟩

/-! ## The scenario of three frames -/

/-- C17, counterexample. With the output of frames 0, 1 and 2 acknowledged,
`mark_encoding_finished(2)` leaves a buffer that is not empty: it holds frames
0, 1 and 2.  With only the output of frame 2 acknowledged, it holds frames 0, 1
and 2 as well: frame 2 is not removed.  And when the three insertions come
first, the commit for frame 0 stops at the assertion on the frame number. -/
theorem three_frames_counterexample :
    (∃ b, run encoder_picture_buffer_ctor scenario_all_output = Outcome.done b ∧
      b.mImages ≠ [] ∧ b.mImages.map image_data.frame_number = [0, 1, 2]) ∧
    (∃ b, run encoder_picture_buffer_ctor scenario_one_output = Outcome.done b ∧
      (2 : Int) ∈ b.mImages.map image_data.frame_number) ∧
    (∃ b, run encoder_picture_buffer_ctor scenario_commit_late =
      Outcome.aborted Fault.frame_number_assert b) :=
  ⟨⟨_, rfl, by decide, by decide⟩, ⟨_, rfl, by decide⟩, ⟨_, rfl⟩⟩

/-- C17, as amended. The scenario of three frames: frames 0, 1 and 2 are
inserted, each given its `ref0` (none, frame 0, frames 0 and 1) and committed
while it is the last record; frame 0 is encoded, then frame 1, and all three
frames are in the buffer after each pass.  Whether the output of all three
frames or only that of frame 2 is acknowledged before frame 2 is encoded,
`mark_encoding_finished(2)` then leaves frames 0, 1 and 2 in the buffer, all in
`state_keep_for_reference` and all marked: frame 2 as the record just finished,
frames 0 and 1 because `ref0` of frame 2 names them. -/
theorem three_frames :
    (∃ b, run encoder_picture_buffer_ctor (scenario_start.take 11) = Outcome.done b ∧
      b.mImages.map image_data.frame_number = [0, 1, 2]) ∧
    (∃ b, run encoder_picture_buffer_ctor scenario_start = Outcome.done b ∧
      b.mImages.map image_data.frame_number = [0, 1, 2]) ∧
    (∃ b, run encoder_picture_buffer_ctor scenario_all_output = Outcome.done b ∧
      b.mImages.map image_data.frame_number = [0, 1, 2] ∧
      b.mImages.map image_data.state =
        [state_keep_for_reference, state_keep_for_reference, state_keep_for_reference] ∧
      b.mImages.map image_data.mark_used = [true, true, true] ∧
      b.mImages.map image_data.is_in_output_queue = [false, false, false]) ∧
    (∃ b, run encoder_picture_buffer_ctor scenario_one_output = Outcome.done b ∧
      b.mImages.map image_data.frame_number = [0, 1, 2] ∧
      b.mImages.map image_data.state =
        [state_keep_for_reference, state_keep_for_reference, state_keep_for_reference] ∧
      b.mImages.map image_data.mark_used = [true, true, true] ∧
      b.mImages.map image_data.is_in_output_queue = [true, true, false]) :=
  ⟨⟨_, rfl, by decide⟩, ⟨_, rfl, by decide⟩,
    ⟨_, rfl, by decide, by decide, by decide, by decide⟩,
    ⟨_, rfl, by decide, by decide, by decide, by decide⟩⟩

end EncPicBuf
